import Mathlib

/-!
Verification of the corsarowdcap capture-and-merge engine (corsarowdcap.c).

This file gives a shallow embedding of the parts of corsarowdcap that the
claims talk about, translated from the C source:

* the SIGHUP rate-limited reload handler (restart_signal);
* the per-packet interval bookkeeping of a processing thread (per_packet):
  first-packet bootstrap and the interval-boundary while loop;
* the k-way merge of interim files: choose_next_merge_packet and the
  write/cleanup logic of write_merged_output, with the external world
  (file opens, packet allocation, writer creation, write success) modelled
  by an explicit environment;
* the pending-interval bookkeeping of merge_finished_interval and the
  message loop of the merging thread (start_merging_thread);
* command-line/config handling of init_wdcap_process and the exit path
  of main (wdcap_main).

Packets are represented by their (Nat) timestamps: the merge logic only
ever inspects the timestamp of a packet.  Machine integers that are only
compared (never overflowed) are modelled as Nat.
-/

/-! ### Reload signal handler (restart_signal) -/

/-- The globals touched by the SIGHUP handler: `corsaro_restart` and
`corsaro_last_restart`. -/
structure RestartState where
  corsaro_restart : Bool
  corsaro_last_restart : Nat
  deriving DecidableEq

/-- `restart_signal` from corsarowdcap.c: reads the monotonic clock and
accepts the reload only when the current second is strictly greater than
the second of the last accepted reload. -/
def restart_signal (st : RestartState) (monotonic_sec : Nat) : RestartState :=
  if st.corsaro_last_restart < monotonic_sec then
    { corsaro_restart := true, corsaro_last_restart := monotonic_sec }
  else st

/-! ### Per-worker interval bookkeeping (per_packet) -/

/-- The interval fields of the local state of a processing thread:
`tls->current_interval.time` and `tls->next_report`. -/
structure WorkerIntervalState where
  current_interval_time : Nat
  next_report : Nat
  deriving DecidableEq

/-- First-packet bootstrap inside `per_packet`:
`current_interval.time = firsttv->tv_sec` and
`next_report = firsttv->tv_sec - (firsttv->tv_sec % interval) + interval`. -/
def initFirstInterval (first_sec interval : Nat) : WorkerIntervalState :=
  { current_interval_time := first_sec
  , next_report := first_sec - first_sec % interval + interval }

/-- The boundary-crossing while loop of `per_packet` (without the restart
branch): while `next_report != 0 && ts >= next_report`, emit an
IntervalDone record carrying `current_interval.time`, then advance
`current_interval.time = next_report; next_report += interval`.
Returns the list of emitted interval timestamps and the final state.

The recursion is driven by fuel `ts_sec + 1 - next_report`, which bounds
the number of iterations whenever `interval > 0` (the source validates
`glob->interval > 0` before this loop can run); each iteration raises
`next_report` by `interval`. -/
def boundaryLoopFuel : Nat → Nat → WorkerIntervalState → Nat → List Nat × WorkerIntervalState
  | 0, _, st, _ => ([], st)
  | fuel + 1, interval, st, ts_sec =>
    if st.next_report ≠ 0 ∧ st.next_report ≤ ts_sec then
      let res := boundaryLoopFuel fuel interval
        { current_interval_time := st.next_report
        , next_report := st.next_report + interval } ts_sec
      (st.current_interval_time :: res.1, res.2)
    else ([], st)

/-- The boundary loop with its sufficient fuel. -/
def boundaryLoop (interval : Nat) (st : WorkerIntervalState) (ts_sec : Nat) :
    List Nat × WorkerIntervalState :=
  boundaryLoopFuel (ts_sec + 1 - st.next_report) interval st ts_sec

/-- The observable state of one worker run: interval state, the interval
timestamps reported so far (in order), and the halted flag
(`corsaro_halted` set because `glob->interval` was invalid). -/
structure WorkerRunState where
  st : WorkerIntervalState
  reports : List Nat
  halted : Bool
  deriving DecidableEq

/-- The interval logic of the `per_packet` callback for one packet with
seconds-timestamp `ts_sec`.  `first_sec` is the seconds timestamp of the
globally-first packet returned by `trace_get_first_packet`.  On the first
packet (`current_interval.time == 0` sentinel) the interval is
bootstrapped; a non-positive interval halts the process. -/
def per_packet (interval first_sec : Nat) (acc : WorkerRunState) (ts_sec : Nat) :
    WorkerRunState :=
  if acc.halted then acc
  else if acc.st.current_interval_time = 0 ∧ interval = 0 then { acc with halted := true }
  else
    let st0 := if acc.st.current_interval_time = 0 then initFirstInterval first_sec interval
               else acc.st
    let res := boundaryLoop interval st0 ts_sec
    { st := res.2, reports := acc.reports ++ res.1, halted := false }

/-- A worker run over a stream of packet second-timestamps, starting from
the zeroed thread-local state of `init_wdcap_thread_data`. -/
def runWorker (interval first_sec : Nat) (pkts : List Nat) : WorkerRunState :=
  pkts.foldl (per_packet interval first_sec)
    { st := { current_interval_time := 0, next_report := 0 }, reports := [], halted := false }

/-! ### Interim readers and choose_next_merge_packet -/

/-- Reader status constants CORSARO_WDCAP_INTERIM_NOPACKET / _PACKET / _EOF. -/
inductive InterimStatus where
  | nopacket
  | packet
  | eof
  deriving DecidableEq

/-- One `corsaro_wdcap_interim_reader_t`.  `opened` models
`source != NULL`, `hasBuf` models `nextp != NULL`, `remaining` is the
not-yet-read tail of the interim file (as timestamps), and `nextp_ts` is
the timestamp of the buffered packet when `status = packet`. -/
structure InterimReader where
  uri : String
  opened : Bool
  hasBuf : Bool
  status : InterimStatus
  nextp_ts : Nat
  remaining : List Nat
  deriving DecidableEq

instance : Inhabited InterimReader :=
  ⟨{ uri := "", opened := false, hasBuf := false, status := .eof, nextp_ts := 0,
     remaining := [] }⟩

/-- The `(uint64)-1` sentinel used to initialise `nextp_ts`. -/
def U64MAX : Nat := 2 ^ 64 - 1

/-- `corsaro_read_next_packet` for a NOPACKET reader: on EOF (`ret <= 0`)
set EOF; otherwise buffer the next packet and record its ERF timestamp. -/
def readNextPacket (r : InterimReader) : InterimReader :=
  match r.remaining with
  | [] => { r with status := .eof }
  | t :: rest => { r with status := .packet, nextp_ts := t, remaining := rest }

/-- The update of one reader during the scan of `choose_next_merge_packet`:
EOF readers are skipped, NOPACKET readers read their next packet,
PACKET readers are left as they are. -/
def stepReader (r : InterimReader) : InterimReader :=
  if r.status = .nopacket then readNextPacket r else r

/-- The candidate update of `choose_next_merge_packet` for reader `r` at
index `i`: a PACKET reader becomes the candidate if there is none yet
(first-valid-wins) or if its buffered timestamp is strictly lower than
that of the current candidate.  The timestamp of the candidate is carried alongside
its index; it equals `readers[candind].nextp_ts`, which does not change
for the rest of the scan. -/
def candUpd (i : Nat) (r : InterimReader) (cand : Option (Nat × Nat)) : Option (Nat × Nat) :=
  if r.status = .packet then
    match cand with
    | none => some (i, r.nextp_ts)
    | some (ci, cts) => if r.nextp_ts < cts then some (i, r.nextp_ts) else some (ci, cts)
  else cand

/-- The linear scan of `choose_next_merge_packet`, returning the updated
readers and the final candidate (index, timestamp), `none` for `-1`. -/
def chooseNextAux : List InterimReader → Nat → Option (Nat × Nat) →
    List InterimReader × Option (Nat × Nat)
  | [], _, cand => ([], cand)
  | r :: rest, i, cand =>
    let r2 := stepReader r
    let res := chooseNextAux rest (i + 1) (candUpd i r2 cand)
    (r2 :: res.1, res.2)

/-- `choose_next_merge_packet` from corsarowdcap.c. -/
def choose_next_merge_packet (rs : List InterimReader) :
    List InterimReader × Option (Nat × Nat) :=
  chooseNextAux rs 0 none

/-- The candidate-selection part of the scan in isolation (the reader
updates commute with it; see `chooseNextAux_eq`). -/
def selectCand : List InterimReader → Nat → Option (Nat × Nat) → Option (Nat × Nat)
  | [], _, cand => cand
  | r :: rest, i, cand => selectCand rest (i + 1) (candUpd i r cand)

/-- The packets a reader still holds: the buffered one (when PACKET)
followed by the unread tail of its interim file. -/
def InterimReader.packets (r : InterimReader) : List Nat :=
  (if r.status = .packet then [r.nextp_ts] else []) ++ r.remaining

/-- Total number of packets still held across all readers. -/
def totalPackets (rs : List InterimReader) : Nat :=
  (rs.map fun r => r.packets.length).sum

/-- Multiset of all packet timestamps still held across all readers. -/
def msum (rs : List InterimReader) : Multiset Nat :=
  (rs.map fun r => (r.packets : Multiset Nat)).sum

/-- The status reset applied to the chosen reader after its buffered
packet was written (`readers[candind].status = NOPACKET`). -/
def resetReader (r : InterimReader) : InterimReader :=
  { r with status := .nopacket }

/-- After `corsaro_write_packet` succeeds, the status of the chosen reader is
reset to NOPACKET so that the next scan reads its following packet. -/
def markWritten (rs : List InterimReader) (j : Nat) : List InterimReader :=
  rs.set j (resetReader (rs.getD j default))

/-! ### write_merged_output -/

/-- The do/while merge loop of `write_merged_output`: repeatedly call
`choose_next_merge_packet`; on `-1` stop with success; otherwise write
`readers[candind].nextp` (its timestamp is recorded) unless the write
fails, in which case stop with failure (`ret = -1; goto fail`).
`writeOK n` tells whether the n-th `corsaro_write_packet` call succeeds.
Each iteration that recurses consumes one buffered packet, so fuel
`totalPackets rs + 1` (supplied by `mergeWrites`) is never exhausted. -/
def mergeWritesFuel : Nat → (Nat → Bool) → Nat → List InterimReader →
    List Nat × Bool × List InterimReader
  | 0, _, _, rs => ([], true, rs)
  | fuel + 1, writeOK, n, rs =>
    match choose_next_merge_packet rs with
    | (rs2, none) => ([], true, rs2)
    | (rs2, some (j, _)) =>
      if writeOK n then
        let res := mergeWritesFuel fuel writeOK (n + 1) (markWritten rs2 j)
        ((rs2.getD j default).nextp_ts :: res.1, res.2.1, res.2.2)
      else ([], false, rs2)

/-- The write-success oracle of a run where every `corsaro_write_packet`
call succeeds. -/
def trueW : Nat → Bool := fun _ => true

/-- The merge loop with its sufficient fuel, starting at write number 0.
Returns (written timestamps, success flag, final readers). -/
def mergeWrites (writeOK : Nat → Bool) (rs : List InterimReader) :
    List Nat × Bool × List InterimReader :=
  mergeWritesFuel (totalPackets rs + 1) writeOK 0 rs

/-- The external environment of one `write_merged_output` call:
`contents i` is `some pkts` when `corsaro_create_trace_reader` succeeds
for the interim file of worker `i` (whose packet timestamps are `pkts`) and
`none` when it fails (worker wrote no packets); `uris i` is the libtrace
URI derived for worker `i` (scheme-prefixed, `needformat = 1`);
`allocOK i` is whether `trace_create_packet` succeeds for reader `i`;
`writerOK` whether `corsaro_create_trace_writer` succeeds; `writeOK n`
whether the n-th `corsaro_write_packet` succeeds; `writestats` is
`glob->writestats`; `statsOpenOK` whether `fopen` of the .stats file
succeeds. -/
structure MergeEnv where
  threads : Nat
  contents : Nat → Option (List Nat)
  uris : Nat → String
  allocOK : Nat → Bool
  writerOK : Bool
  writeOK : Nat → Bool
  writestats : Bool
  statsOpenOK : Bool

/-- Reader record built when `corsaro_create_trace_reader` fails:
`nextp = NULL`, `nextp_ts = (uint64)-1`, `status = EOF`. -/
def eofReader (uri : String) : InterimReader :=
  { uri := uri, opened := false, hasBuf := false, status := .eof, nextp_ts := U64MAX,
    remaining := [] }

/-- Reader record built when the interim file opens: `nextp` allocated
(`alloc` says whether that allocation succeeded), `nextp_ts = (uint64)-1`,
`status = NOPACKET`. -/
def freshReader (uri : String) (alloc : Bool) (pkts : List Nat) : InterimReader :=
  { uri := uri, opened := true, hasBuf := alloc, status := .nopacket, nextp_ts := U64MAX,
    remaining := pkts }

/-- The reader-setup loop of `write_merged_output` from worker index `i`
with `fuel` workers left.  A failed `trace_create_packet` aborts the loop
(`ret = -1; goto fail`) after the fields of the current reader were set; the
Bool is the abort flag.  Readers past the abort point are never touched
(their `source`/`nextp` are NULL from the calloc in
`start_merging_thread`), so they are simply absent from the list. -/
def setupFrom (env : MergeEnv) : Nat → Nat → List InterimReader × Bool
  | _, 0 => ([], false)
  | i, fuel + 1 =>
    match env.contents i with
    | none =>
      let rest := setupFrom env (i + 1) fuel
      (eofReader (env.uris i) :: rest.1, rest.2)
    | some pkts =>
      if env.allocOK i then
        let rest := setupFrom env (i + 1) fuel
        (freshReader (env.uris i) true pkts :: rest.1, rest.2)
      else ([freshReader (env.uris i) false pkts], true)

/-- All readers set up by `write_merged_output` (indices 0 .. threads-1,
possibly truncated by an allocation failure). -/
def setupReaders (env : MergeEnv) : List InterimReader × Bool :=
  setupFrom env 0 env.threads

/-- The reader that the setup loop builds for worker `k`. -/
def expectedReader (env : MergeEnv) (k : Nat) : InterimReader :=
  match env.contents k with
  | none => eofReader (env.uris k)
  | some pkts => freshReader (env.uris k) (env.allocOK k) pkts

/-- `strchr(uri, ':')` on the character list: what follows the first
colon, or `none` when there is no colon. -/
def afterFirstColon : List Char → Option (List Char)
  | [] => none
  | c :: rest => if c = ':' then some rest else afterFirstColon rest

/-- The interim-file deletion path of the cleanup loop:
`tok = strchr(uri, ':'); if (tok == NULL) tok = uri; else tok++;
remove(tok);` — i.e. drop everything up to and including the first colon,
if any. -/
def stripScheme (uri : String) : String :=
  match afterFirstColon uri.data with
  | none => uri
  | some rest => String.mk rest

/-- The observable outcome of one `write_merged_output` call. -/
structure MergeOutcome where
  ret : Int
  doneCreated : Bool
  statsWritten : Bool
  written : List Nat
  removed : List String
  srcDestroyed : List Bool
  bufDestroyed : List Bool
  deriving DecidableEq

/-- The tail of `write_merged_output` after the merge loop (the code from
the `fail:` label onward, which runs on success and on failure alike):
write the .stats file when enabled, create the `.done` marker only when
`success` is set, then for every reader destroy its packet buffer if
allocated, and if its source was opened destroy it and unlink the
scheme-stripped interim URI. -/
def finishMerge (env : MergeEnv) (readers : List InterimReader) (success : Bool)
    (ret : Int) (written : List Nat) : MergeOutcome :=
  { ret := ret
  , doneCreated := success
  , statsWritten := env.writestats && env.statsOpenOK
  , written := written
  , removed := (readers.filter fun r => r.opened).map fun r => stripScheme r.uri
  , srcDestroyed := readers.map fun r => r.opened
  , bufDestroyed := readers.map fun r => r.hasBuf }

/-- `write_merged_output` from corsarowdcap.c over the environment `env`:
set up the readers (a packet-allocation failure aborts straight to
`fail:`), create the output writer (failure likewise), run the merge
loop, then run the common tail. -/
def write_merged_output (env : MergeEnv) : MergeOutcome :=
  let setup := setupReaders env
  if setup.2 then finishMerge env setup.1 false (-1) []
  else if env.writerOK = false then finishMerge env setup.1 false (-1) []
  else
    let res := mergeWrites env.writeOK setup.1
    finishMerge env res.2.2 res.2.1 (if res.2.1 then 0 else -1) res.1

/-! ### merge_finished_interval and the merging thread -/

/-- One `corsaro_wdcap_interval_t` in the `waiting` list of the merger.
`thread_ids` is the orderly record of reporting workers
(`fin->thread_ids[0 .. threads_done-1]`). -/
structure PendingInterval where
  timestamp : Nat
  threads_done : Nat
  thread_ids : List Nat
  deriving DecidableEq

instance : Inhabited PendingInterval :=
  ⟨{ timestamp := 0, threads_done := 0, thread_ids := [] }⟩

/-- The tail of `merge_finished_interval`: if the touched entry (at
position `idx`) now has `threads_done == glob->threads`, merge it and set
`mergestate->waiting = fin->next` — which keeps only the entries AFTER
`fin`, discarding `fin` and every entry before it.  Returns the new list
and whether a merge took place. -/
def finishCheck (nthreads : Nat) (waiting : List PendingInterval) (idx : Nat) :
    List PendingInterval × Bool :=
  if (waiting.getD idx default).threads_done = nthreads then
    (waiting.drop (idx + 1), true)
  else (waiting, false)

/-- `merge_finished_interval` from corsarowdcap.c: find the entry with
this timestamp (append a fresh one at the end of the list if absent,
with `threads_done = 1`), otherwise record the reporting thread and
increment `threads_done`; then check for completion. -/
def merge_finished_interval (nthreads : Nat) (waiting : List PendingInterval)
    (threadid timestamp : Nat) : List PendingInterval × Bool :=
  match waiting.findIdx? (fun fin => fin.timestamp == timestamp) with
  | none =>
    finishCheck nthreads
      (waiting ++ [{ timestamp := timestamp, threads_done := 1, thread_ids := [threadid] }])
      waiting.length
  | some idx =>
    let fin := waiting.getD idx default
    finishCheck nthreads
      (waiting.set idx
        { fin with threads_done := fin.threads_done + 1
                 , thread_ids := fin.thread_ids ++ [threadid] })
      idx

/-- A coordination record as seen by the merging thread (`msg.type`). -/
inductive WdcapMsg where
  | stopMsg
  | intervalDone (threadid timestamp : Nat)
  | unknown (tag : Nat)
  deriving DecidableEq

/-- How the receive loop of the merging thread ended. -/
inductive MergerExit where
  | stoppedByMsg
  | recvEnded
  | exitedProcess
  deriving DecidableEq

/-- Is the tag of this record unknown to the merging thread? -/
def isUnknownMsg : WdcapMsg → Bool
  | .unknown _ => true
  | _ => false

/-- The receive loop of `start_merging_thread` over a finite stream of
incoming records, carrying the `badmessages` counter: STOP breaks the
loop; INTERVAL_DONE updates the pending list; any other tag is counted
and, once the counter reaches 100 (`badmessages >= 100` after the
increment), the process exits via `exit(-1)`.  An exhausted stream models
`zmq_recv` failing, which also breaks the loop.  Returns how the loop
ended and the final bad-message count. -/
def start_merging_thread (nthreads : Nat) :
    List PendingInterval → Nat → List WdcapMsg → MergerExit × Nat
  | _, bad, [] => (.recvEnded, bad)
  | waiting, bad, msg :: rest =>
    match msg with
    | .stopMsg => (.stoppedByMsg, bad)
    | .intervalDone tid ts =>
      start_merging_thread nthreads (merge_finished_interval nthreads waiting tid ts).1 bad rest
    | .unknown _ =>
      if bad + 1 ≥ 100 then (.exitedProcess, bad + 1)
      else start_merging_thread nthreads waiting (bad + 1) rest

/-! ### init_wdcap_process and main -/

/-- The command-line options as classified by the getopt loop:
`-c <file>`, `-l <mode>`, `-h`, or any unsupported flag. -/
inductive CliOpt where
  | config (s : String)
  | logOpt (s : String)
  | help
  | badFlag
  deriving DecidableEq

/-- The logmode-string table of `init_wdcap_process`
(GLOBAL_LOGMODE_STDERR/_FILE/_SYSLOG/_DISABLED); `none` for an
unrecognised mode. -/
def parseLogmode (s : String) : Option Nat :=
  if s = "stderr" ∨ s = "terminal" then some 0
  else if s = "file" then some 1
  else if s = "syslog" then some 2
  else if s = "disabled" ∨ s = "off" ∨ s = "none" then some 3
  else none

/-- Outcome of `init_wdcap_process`: whether it returned nonzero
(failure) and whether an error message was printed to stderr. -/
structure InitOutcome where
  failed : Bool
  stderrReported : Bool
  deriving DecidableEq

/-- The body of `init_wdcap_process`: the getopt loop (`-h` prints usage
to stdout and returns 1; an unsupported flag prints to stderr and
returns 1; later `-c`/`-l` occurrences overwrite earlier ones), then the
missing-configfile check (stderr, return 1), then logmode validation
(stderr, return 1), then `corsaro_wdcap_init_global` whose success is
`initGlobalOK` (it logs its own errors). -/
def initScan (initGlobalOK : Bool) :
    List CliOpt → Option String → Option String → InitOutcome
  | [], configfile, logmodestr =>
    match configfile with
    | none => { failed := true, stderrReported := true }
    | some _ =>
      match logmodestr with
      | none =>
        if initGlobalOK then { failed := false, stderrReported := false }
        else { failed := true, stderrReported := false }
      | some s =>
        match parseLogmode s with
        | none => { failed := true, stderrReported := true }
        | some _ =>
          if initGlobalOK then { failed := false, stderrReported := false }
          else { failed := true, stderrReported := false }
  | opt :: rest, configfile, logmodestr =>
    match opt with
    | .config s => initScan initGlobalOK rest (some s) logmodestr
    | .logOpt s => initScan initGlobalOK rest configfile (some s)
    | .help => { failed := true, stderrReported := false }
    | .badFlag => { failed := true, stderrReported := true }

/-- `init_wdcap_process` from corsarowdcap.c. -/
def init_wdcap_process (opts : List CliOpt) (initGlobalOK : Bool) : InitOutcome :=
  initScan initGlobalOK opts none none

/-- What `main` observably does on the configuration path: the process
exit status and whether the capture child (which runs the worker and
merger threads) was forked. -/
structure MainOutcome where
  exitCode : Int
  forkedCapture : Bool
  deriving DecidableEq

/-- The configuration path of `main`: when `init_wdcap_process` fails,
`runerr` is set and control jumps to `endwdcap`, which skips the
child-TERM block and falls through to `return 0` — no fork, no threads,
exit status 0.  Otherwise the capture child is forked. -/
def wdcap_main (opts : List CliOpt) (initGlobalOK : Bool) : MainOutcome :=
  if (init_wdcap_process opts initGlobalOK).failed then
    { exitCode := 0, forkedCapture := false }
  else { exitCode := 0, forkedCapture := true }

/-! ### Concrete environments used by witnesses -/

/-- Two workers, sorted interim files, everything succeeds
(spec scenario 1 shape). -/
def envC2 : MergeEnv :=
  { threads := 2
  , contents := fun i => if i = 0 then some [1601, 1603] else if i = 1 then some [1602, 1659] else none
  , uris := fun i => if i = 0 then "pcapfile:int--0" else "pcapfile:int--1"
  , allocOK := fun _ => true
  , writerOK := true
  , writeOK := fun _ => true
  , writestats := false
  , statsOpenOK := true }

/-- Worker 0 wrote an interim file, worker 1 was silent. -/
def envC6 : MergeEnv :=
  { threads := 2
  , contents := fun i => if i = 0 then some [3] else none
  , uris := fun i => if i = 0 then "pcapfile:int--0" else "pcapfile:int--1"
  , allocOK := fun _ => true
  , writerOK := true
  , writeOK := fun _ => true
  , writestats := false
  , statsOpenOK := true }

/-- Stats enabled but the output writer cannot be created: the merge is
abandoned. -/
def envC10 : MergeEnv :=
  { threads := 1
  , contents := fun _ => some [7]
  , uris := fun _ => "pcapfile:int--0"
  , allocOK := fun _ => true
  , writerOK := false
  , writeOK := fun _ => true
  , writestats := true
  , statsOpenOK := true }

/-- Two readers both presenting a buffered packet with the same
timestamp (spec scenario 2, the tie-break), one exhausted reader. -/
def rsC4 : List InterimReader :=
  [{ uri := "pcapfile:int--0", opened := true, hasBuf := true, status := .packet,
     nextp_ts := 500, remaining := [900] },
   { uri := "pcapfile:int--1", opened := true, hasBuf := true, status := .packet,
     nextp_ts := 500, remaining := [] },
   { uri := "pcapfile:int--2", opened := false, hasBuf := false, status := .eof,
     nextp_ts := U64MAX, remaining := [] }]

/-! ### Invariants used by the proofs -/

/-- Invariant of a worker run: the next boundary is interval-aligned;
before any report the current interval time is the 0 sentinel or the
first-packet time; the reports are the first-packet time followed by
aligned boundaries; and once something was reported the current interval
time is an aligned, positive boundary. -/
def workerInv (interval first_sec : Nat) (acc : WorkerRunState) : Prop :=
  acc.st.next_report % interval = 0
  ∧ (acc.reports = [] →
      (acc.st.current_interval_time = 0 ∨ acc.st.current_interval_time = first_sec))
  ∧ (acc.reports = []
      ∨ ∃ t, acc.reports = first_sec :: t ∧ ∀ r ∈ t, r % interval = 0)
  ∧ (acc.reports ≠ [] →
      acc.st.current_interval_time % interval = 0 ∧ 0 < acc.st.current_interval_time)

/-- Invariant of a reader state reachable during a merge: an EOF reader
has nothing left to read, and the packets a reader holds are
non-decreasing in timestamp. -/
def readersOK (rs : List InterimReader) : Prop :=
  ∀ r ∈ rs, (r.status = .eof → r.remaining = []) ∧ List.Sorted (· ≤ ·) r.packets

/-- The fields of a reader that the merge loop never modifies and that
the cleanup code reads: URI, whether the source was opened, whether the
packet buffer was allocated. -/
def shellOf (rs : List InterimReader) : List (String × Bool × Bool) :=
  rs.map fun r => (r.uri, r.opened, r.hasBuf)

/-! ## General list lemmas -/

/-- `getD` through `map`, for in-range indices. -/
theorem list_getD_map {α β : Type} (f : α → β) (d : α) (d2 : β) :
    ∀ (l : List α) (i : Nat), i < l.length → (l.map f).getD i d2 = f (l.getD i d) := by
  intro l
  induction l with
  | nil => intro i h; simp at h
  | cons a l ih =>
    intro i h
    cases i with
    | zero => rfl
    | succ i => exact ih i (by simpa using h)

/-- An in-range `getD` is a member. -/
theorem list_getD_mem {α : Type} (d : α) :
    ∀ (l : List α) (i : Nat), i < l.length → l.getD i d ∈ l := by
  intro l
  induction l with
  | nil => intro i h; simp at h
  | cons a l ih =>
    intro i h
    cases i with
    | zero => exact List.mem_cons_self a l
    | succ i => exact List.mem_cons_of_mem a (ih i (by simpa using h))

/-- Every member is an in-range `getD`. -/
theorem list_mem_getD {α : Type} (d : α) :
    ∀ (l : List α) (r : α), r ∈ l → ∃ i, i < l.length ∧ l.getD i d = r := by
  intro l
  induction l with
  | nil => intro r h; simp at h
  | cons a l ih =>
    intro r h
    rcases List.mem_cons.mp h with h | h
    · exact ⟨0, by simp, h.symm⟩
    · rcases ih r h with ⟨i, hi, hg⟩
      exact ⟨i + 1, by simpa using hi, hg⟩

/-- `getD` after `set` at the same (in-range) index. -/
theorem list_getD_set_self {α : Type} (d : α) :
    ∀ (l : List α) (j : Nat) (x : α), j < l.length → (l.set j x).getD j d = x := by
  intro l
  induction l with
  | nil => intro j x h; simp at h
  | cons a l ih =>
    intro j x h
    cases j with
    | zero => rfl
    | succ j => exact ih j x (by simpa using h)

/-- `getD` after `set` at a different index. -/
theorem list_getD_set_other {α : Type} (d : α) :
    ∀ (l : List α) (j k : Nat) (x : α), j ≠ k → (l.set j x).getD k d = l.getD k d := by
  intro l
  induction l with
  | nil => intro j k x _; simp [List.set]
  | cons a l ih =>
    intro j k x hjk
    cases j with
    | zero =>
      cases k with
      | zero => exact absurd rfl hjk
      | succ k => rfl
    | succ j =>
      cases k with
      | zero => rfl
      | succ k => exact ih j k x (by omega)

/-- Summing `f` over a list with one element replaced. -/
theorem list_sum_map_set {α β : Type} [AddCommMonoid β] (f : α → β) (d : α) :
    ∀ (l : List α) (j : Nat) (x : α), j < l.length →
      ((l.set j x).map f).sum + f (l.getD j d) = (l.map f).sum + f x := by
  intro l
  induction l with
  | nil => intro j x h; simp at h
  | cons a l ih =>
    intro j x h
    cases j with
    | zero =>
      simp only [List.set, List.getD_cons_zero, List.map_cons, List.sum_cons]
      abel
    | succ j =>
      have hj : j < l.length := by simpa using h
      simp only [List.set, List.getD_cons_succ, List.map_cons, List.sum_cons]
      rw [add_assoc, ih j x hj, ← add_assoc]

/-- Membership after `set`. -/
theorem list_mem_set {α : Type} :
    ∀ (l : List α) (j : Nat) (x r : α), r ∈ l.set j x → r ∈ l ∨ r = x := by
  intro l
  induction l with
  | nil => intro j x r h; simp [List.set] at h
  | cons a l ih =>
    intro j x r h
    cases j with
    | zero =>
      rcases List.mem_cons.mp h with h | h
      · exact Or.inr h
      · exact Or.inl (List.mem_cons_of_mem a h)
    | succ j =>
      rcases List.mem_cons.mp h with h | h
      · exact Or.inl (h ▸ List.mem_cons_self a l)
      · rcases ih j x r h with h | h
        · exact Or.inl (List.mem_cons_of_mem a h)
        · exact Or.inr h

/-! ## C9: rate-limited reload handler -/

/-- C9: `restart_signal` accepts a hangup exactly when its monotonic
second is strictly greater than the second of the last accepted reload:
then it sets the reload flag and updates the last-reload time; otherwise
it leaves both globals unchanged. -/
theorem C9_restart_rate_limit (st : RestartState) (now : Nat) :
    (st.corsaro_last_restart < now →
      restart_signal st now = { corsaro_restart := true, corsaro_last_restart := now })
    ∧ (¬ st.corsaro_last_restart < now → restart_signal st now = st) := by
  constructor <;> intro h <;> simp [restart_signal, h]

/-- Witness for C9 at concrete states: an accepted hangup in a later
second, and a suppressed hangup in the same second. -/
theorem C9_restart_rate_limit_witness :
    restart_signal { corsaro_restart := false, corsaro_last_restart := 5 } 6
      = { corsaro_restart := true, corsaro_last_restart := 6 }
    ∧ restart_signal { corsaro_restart := true, corsaro_last_restart := 6 } 6
      = { corsaro_restart := true, corsaro_last_restart := 6 } :=
  ⟨(C9_restart_rate_limit { corsaro_restart := false, corsaro_last_restart := 5 } 6).1
      (by decide),
   (C9_restart_rate_limit { corsaro_restart := true, corsaro_last_restart := 6 } 6).2
      (by decide)⟩

/-! ## C7: configuration errors -/

/-- Whenever `init_wdcap_process` reports to stderr it also fails. -/
theorem initScan_stderr_failed (ok : Bool) :
    ∀ (opts : List CliOpt) (cf lm : Option String),
      (initScan ok opts cf lm).stderrReported = true → (initScan ok opts cf lm).failed = true := by
  intro opts
  induction opts with
  | nil =>
    intro cf lm h
    cases cf with
    | none => rfl
    | some c =>
      cases lm with
      | none =>
        simp only [initScan] at h ⊢
        cases ok <;> simp_all
      | some s =>
        simp only [initScan] at h ⊢
        revert h
        cases parseLogmode s with
        | none => intro _; rfl
        | some m => intro h; cases ok <;> simp_all
  | cons opt rest ih =>
    intro cf lm h
    cases opt with
    | config s => exact ih (some s) lm h
    | logOpt s => exact ih cf (some s) h
    | help => simp only [initScan] at h; exact absurd h (by simp)
    | badFlag => rfl

/-- C7, counterexample to the claim as stated: running with no `-c`
option is a configuration error that is reported to stderr and stops the
process before any fork or thread creation, yet the process exit status
is 0 (the `endwdcap` path of `main` falls through to `return 0`), not
non-zero. -/
theorem C7_counterexample :
    init_wdcap_process [] true = { failed := true, stderrReported := true }
    ∧ wdcap_main [] true = { exitCode := 0, forkedCapture := false } := by
  constructor <;> rfl

/-- C7 (amended): a configuration error makes `main` return before
forking the capture process (hence before any worker or merger thread is
spawned), but with exit status 0; and every stderr-reported
configuration error does fail `init_wdcap_process`. -/
theorem C7_amended_exit_behavior (opts : List CliOpt) (ok : Bool) :
    ((init_wdcap_process opts ok).failed = true →
      wdcap_main opts ok = { exitCode := 0, forkedCapture := false })
    ∧ ((init_wdcap_process opts ok).stderrReported = true →
      (init_wdcap_process opts ok).failed = true) := by
  constructor
  · intro h; simp [wdcap_main, h]
  · exact initScan_stderr_failed ok opts none none

/-- Witness for C7 (amended) at a concrete unsupported flag. -/
theorem C7_amended_exit_behavior_witness :
    wdcap_main [CliOpt.badFlag] true = { exitCode := 0, forkedCapture := false } :=
  (C7_amended_exit_behavior [CliOpt.badFlag] true).1 (by decide)

/-! ## C8: unknown-tag records in the merging thread -/

set_option maxRecDepth 4000 in
/-- C8, counterexample to the claim as stated: exactly 100 unknown-tag
records (not more than 100) already make the merging thread call
`exit(-1)`, because the counter is incremented before the `>= 100`
test. -/
theorem C8_counterexample :
    (start_merging_thread 1 [] 0 (List.replicate 100 (WdcapMsg.unknown 7))).1
      = MergerExit.exitedProcess
    ∧ (List.replicate 100 (WdcapMsg.unknown 7)).countP isUnknownMsg = 100 := by
  constructor <;> decide

/-- If the unknown-tag records remaining can never push the counter to
100, the merging thread does not exit the process. -/
theorem merging_no_exit :
    ∀ (msgs : List WdcapMsg) (nthreads bad : Nat) (waiting : List PendingInterval),
      bad + msgs.countP isUnknownMsg < 100 →
      (start_merging_thread nthreads waiting bad msgs).1 ≠ MergerExit.exitedProcess := by
  intro msgs
  induction msgs with
  | nil => intro nthreads bad waiting _; simp [start_merging_thread]
  | cons msg rest ih =>
    intro nthreads bad waiting h
    cases msg with
    | stopMsg => simp [start_merging_thread]
    | intervalDone tid ts =>
      simp only [start_merging_thread]
      exact ih nthreads bad _ (by simpa [List.countP_cons, isUnknownMsg] using h)
    | unknown tag =>
      have hcnt : rest.countP isUnknownMsg + 1 = (WdcapMsg.unknown tag :: rest).countP isUnknownMsg := by
        simp [List.countP_cons, isUnknownMsg]
      simp only [start_merging_thread]
      have hlt : ¬ bad + 1 ≥ 100 := by omega
      simp only [hlt, if_false]
      exact ih nthreads (bad + 1) waiting (by omega)

/-- C8 (amended): the merging thread exits the process exactly when the
bad-message counter reaches 100, i.e. on the 100th unknown-tag record;
a run that carries 99 or fewer unknown-tag records never terminates the
process this way. -/
theorem C8_amended_threshold (nthreads : Nat) (waiting : List PendingInterval)
    (msgs : List WdcapMsg) (h : msgs.countP isUnknownMsg ≤ 99) :
    (start_merging_thread nthreads waiting 0 msgs).1 ≠ MergerExit.exitedProcess :=
  merging_no_exit msgs nthreads 0 waiting (by omega)

set_option maxRecDepth 4000 in
/-- Witness for C8 (amended): 99 unknown-tag records do not terminate
the process. -/
theorem C8_amended_threshold_witness :
    (start_merging_thread 1 [] 0 (List.replicate 99 (WdcapMsg.unknown 7))).1
      ≠ MergerExit.exitedProcess :=
  C8_amended_threshold 1 [] (List.replicate 99 (WdcapMsg.unknown 7)) (by decide)

/-! ## C5: pending-interval list -/

/-- C5, evaluation at the failing input: two workers (N = 2); worker 0
has reported interval 100, and both workers have reported interval 160
(each worker sent at most one IntervalDone per timestamp).  When worker
1 reporting 160 completes that interval, `merge_finished_interval`
merges interval 160 but sets the list to `fin->next`, which removes the
still-pending entry for interval 100 as well — the claim (and the spec)
say only the completed entry is removed, so the result should have been
`[⟨100, 1, [0]⟩]`, not `[]`. -/
theorem C5_code_bug_eval :
    merge_finished_interval 2
      [{ timestamp := 100, threads_done := 1, thread_ids := [0] },
       { timestamp := 160, threads_done := 1, thread_ids := [0] }] 1 160
      = ([], true) := by
  decide

/-! ## C1: first-packet bootstrap and interval identifiers -/

/-- The next boundary set by the first-packet bootstrap is
interval-aligned. -/
theorem initFirstInterval_next_mod (f L : Nat) :
    (initFirstInterval f L).next_report % L = 0 := by
  obtain ⟨q, hq⟩ : ∃ q, f - f % L = L * q :=
    ⟨f / L, by have := Nat.div_add_mod f L; omega⟩
  show (f - f % L + L) % L = 0
  rw [hq, ← Nat.mul_succ]
  exact Nat.mul_mod_right L (q + 1)

/-- Shape of one run of the boundary-crossing loop when the incoming
boundary is aligned: either nothing is emitted and the state is
unchanged, or the emitted reports start with the incoming
`current_interval.time` followed only by aligned boundaries, and the
current time of the final state is an aligned boundary at least as large as
the incoming (nonzero) next boundary.  The final next boundary is always
aligned. -/
theorem boundaryLoopFuel_spec :
    ∀ (fuel interval : Nat) (st : WorkerIntervalState) (ts : Nat),
      st.next_report % interval = 0 →
      (((boundaryLoopFuel fuel interval st ts).1 = []
          ∧ (boundaryLoopFuel fuel interval st ts).2 = st)
        ∨ (∃ t, (boundaryLoopFuel fuel interval st ts).1 = st.current_interval_time :: t
            ∧ (∀ r ∈ t, r % interval = 0)
            ∧ (boundaryLoopFuel fuel interval st ts).2.current_interval_time % interval = 0
            ∧ st.next_report ≤ (boundaryLoopFuel fuel interval st ts).2.current_interval_time
            ∧ st.next_report ≠ 0))
      ∧ (boundaryLoopFuel fuel interval st ts).2.next_report % interval = 0 := by
  intro fuel
  induction fuel with
  | zero => intro interval st ts h; exact ⟨Or.inl ⟨rfl, rfl⟩, h⟩
  | succ fuel ih =>
    intro interval st ts h
    by_cases hc : st.next_report ≠ 0 ∧ st.next_report ≤ ts
    · have e1 : (boundaryLoopFuel (fuel + 1) interval st ts).1
          = st.current_interval_time ::
            (boundaryLoopFuel fuel interval
              { current_interval_time := st.next_report
              , next_report := st.next_report + interval } ts).1 := by
        simp [boundaryLoopFuel, hc]
      have e2 : (boundaryLoopFuel (fuel + 1) interval st ts).2
          = (boundaryLoopFuel fuel interval
              { current_interval_time := st.next_report
              , next_report := st.next_report + interval } ts).2 := by
        simp [boundaryLoopFuel, hc]
      have h2 : ({ current_interval_time := st.next_report
                 , next_report := st.next_report + interval } :
                   WorkerIntervalState).next_report % interval = 0 := by
        show (st.next_report + interval) % interval = 0
        rw [Nat.add_mod_right]; exact h
      rcases ih interval _ ts h2 with ⟨hcase, hnext⟩
      refine ⟨Or.inr ?_, by rw [e2]; exact hnext⟩
      rcases hcase with ⟨hei, hfi⟩ | ⟨t, ht, htall, hcur, hle, _⟩
      · refine ⟨[], ?_, ?_, ?_, ?_, hc.1⟩
        · rw [e1, hei]
        · intro r hr; exact absurd hr (List.not_mem_nil r)
        · rw [e2, hfi]; exact h
        · rw [e2, hfi]
      · refine ⟨st.next_report :: t, ?_, ?_, ?_, ?_, hc.1⟩
        · rw [e1, ht]
        · intro r hr
          rcases List.mem_cons.mp hr with hr | hr
          · rw [hr]; exact h
          · exact htall r hr
        · rw [e2]; exact hcur
        · rw [e2]
          exact le_trans (Nat.le_add_right _ _) hle
    · have e0 : boundaryLoopFuel (fuel + 1) interval st ts = ([], st) := by
        simp only [boundaryLoopFuel, if_neg hc]
      exact ⟨Or.inl (by rw [e0]; exact ⟨rfl, rfl⟩), by rw [e0]; exact h⟩

/-- A fold preserves any invariant its step preserves. -/
theorem foldl_inv {σ α : Type} (P : σ → Prop) (f : σ → α → σ)
    (hstep : ∀ s a, P s → P (f s a)) :
    ∀ (l : List α) (s : σ), P s → P (l.foldl f s) := by
  intro l
  induction l with
  | nil => intro s h; exact h
  | cons a l ih => intro s h; exact ih (f s a) (hstep s a h)

/-- `boundaryLoopFuel_spec` at the fuel used by `boundaryLoop`. -/
theorem boundaryLoop_spec (interval : Nat) (st : WorkerIntervalState) (ts : Nat)
    (h : st.next_report % interval = 0) :
    (((boundaryLoop interval st ts).1 = [] ∧ (boundaryLoop interval st ts).2 = st)
      ∨ (∃ t, (boundaryLoop interval st ts).1 = st.current_interval_time :: t
          ∧ (∀ r ∈ t, r % interval = 0)
          ∧ (boundaryLoop interval st ts).2.current_interval_time % interval = 0
          ∧ st.next_report ≤ (boundaryLoop interval st ts).2.current_interval_time
          ∧ st.next_report ≠ 0))
    ∧ (boundaryLoop interval st ts).2.next_report % interval = 0 :=
  boundaryLoopFuel_spec (ts + 1 - st.next_report) interval st ts h

/-- On the normal path (not halted, valid interval), `per_packet` ends in
the state produced by the boundary loop run from the (possibly
bootstrapped) interval state. -/
theorem per_packet_normal_st (interval first_sec : Nat) (acc : WorkerRunState) (ts : Nat)
    (hh : acc.halted = false) (hz : ¬(acc.st.current_interval_time = 0 ∧ interval = 0)) :
    (per_packet interval first_sec acc ts).st
      = (boundaryLoop interval (if acc.st.current_interval_time = 0
          then initFirstInterval first_sec interval else acc.st) ts).2 := by
  simp [per_packet, hh, hz]

/-- On the normal path, `per_packet` appends the emitted
interval reports. -/
theorem per_packet_normal_reports (interval first_sec : Nat) (acc : WorkerRunState) (ts : Nat)
    (hh : acc.halted = false) (hz : ¬(acc.st.current_interval_time = 0 ∧ interval = 0)) :
    (per_packet interval first_sec acc ts).reports
      = acc.reports ++ (boundaryLoop interval (if acc.st.current_interval_time = 0
          then initFirstInterval first_sec interval else acc.st) ts).1 := by
  simp [per_packet, hh, hz]

/-- `per_packet` preserves the worker invariant. -/
theorem per_packet_inv (interval first_sec : Nat) (acc : WorkerRunState) (ts : Nat)
    (h : workerInv interval first_sec acc) :
    workerInv interval first_sec (per_packet interval first_sec acc ts) := by
  obtain ⟨h1, h2, h3, h4⟩ := h
  by_cases hh : acc.halted = true
  · have hpe : per_packet interval first_sec acc ts = acc := by
      simp [per_packet, hh]
    rw [hpe]; exact ⟨h1, h2, h3, h4⟩
  by_cases hz : acc.st.current_interval_time = 0 ∧ interval = 0
  · have hpe : per_packet interval first_sec acc ts = { acc with halted := true } := by
      simp only [per_packet, hh, Bool.false_eq_true, if_neg, if_pos hz]
      simp [hh]
    rw [hpe]; exact ⟨h1, h2, h3, h4⟩
  have hhf : acc.halted = false := by revert hh; cases acc.halted <;> simp
  have hstq := per_packet_normal_st interval first_sec acc ts hhf hz
  have hrq := per_packet_normal_reports interval first_sec acc ts hhf hz
  have hst0 : (if acc.st.current_interval_time = 0
      then initFirstInterval first_sec interval else acc.st).next_report % interval = 0 := by
    by_cases hcz : acc.st.current_interval_time = 0
    · rw [if_pos hcz]; exact initFirstInterval_next_mod first_sec interval
    · rw [if_neg hcz]; exact h1
  rcases boundaryLoop_spec interval _ ts hst0 with ⟨hcase, hnext⟩
  rcases hcase with ⟨hei, hfi⟩ | ⟨t, ht, htall, hcur, hle, hne⟩
  · -- no boundary crossed: state is st0, reports unchanged
    refine ⟨?_, ?_, ?_, ?_⟩
    · rw [hstq]; exact hnext
    · intro hrep
      rw [hrq, hei, List.append_nil] at hrep
      rw [hstq, hfi]
      by_cases hcz : acc.st.current_interval_time = 0
      · rw [if_pos hcz]; exact Or.inr rfl
      · rw [if_neg hcz]; exact h2 hrep
    · rw [hrq, hei, List.append_nil]; exact h3
    · intro hrep
      rw [hrq, hei, List.append_nil] at hrep
      rcases h4 hrep with ⟨hc4a, hc4b⟩
      have hcz : ¬ acc.st.current_interval_time = 0 := by omega
      rw [hstq, hfi, if_neg hcz]
      exact ⟨hc4a, hc4b⟩
  · -- at least one boundary crossed and reported
    refine ⟨?_, ?_, ?_, ?_⟩
    · rw [hstq]; exact hnext
    · intro hrep
      rw [hrq, ht] at hrep
      exact absurd hrep (by simp)
    · rcases h3 with hrep0 | ⟨t0, ht0, ht0all⟩
      · -- first ever report: its head is the first-packet time
        have hhead : (if acc.st.current_interval_time = 0
            then initFirstInterval first_sec interval
            else acc.st).current_interval_time = first_sec := by
          by_cases hcz : acc.st.current_interval_time = 0
          · rw [if_pos hcz]; rfl
          · rw [if_neg hcz]
            rcases h2 hrep0 with hcz2 | hfs
            · exact absurd hcz2 hcz
            · exact hfs
        refine Or.inr ⟨t, ?_, htall⟩
        rw [hrq, hrep0, List.nil_append, ht, hhead]
      · -- reports already start with the first-packet time
        rcases h4 (by rw [ht0]; simp) with ⟨hc4a, hc4b⟩
        have hcz : ¬ acc.st.current_interval_time = 0 := by omega
        refine Or.inr ⟨t0 ++ ((if acc.st.current_interval_time = 0
            then initFirstInterval first_sec interval
            else acc.st).current_interval_time :: t), ?_, ?_⟩
        · rw [hrq, ht0, ht]; simp
        · intro r hr
          rcases List.mem_append.mp hr with hr | hr
          · exact ht0all r hr
          · rcases List.mem_cons.mp hr with hr | hr
            · rw [hr, if_neg hcz]; exact hc4a
            · exact htall r hr
    · intro _
      rw [hstq]
      exact ⟨hcur, by omega⟩

/-- The worker invariant holds after any run. -/
theorem runWorker_inv (interval first_sec : Nat) (pkts : List Nat) :
    workerInv interval first_sec (runWorker interval first_sec pkts) := by
  unfold runWorker
  refine foldl_inv (workerInv interval first_sec) (per_packet interval first_sec)
    (fun s a hs => per_packet_inv interval first_sec s a hs) pkts _ ?_
  exact ⟨Nat.zero_mod interval, fun _ => Or.inl rfl, Or.inl rfl, fun hne => absurd rfl hne⟩

set_option maxRecDepth 4000 in
/-- C1, counterexample to the claim as stated: with a 60-second interval
and a globally-first packet at second 1700000001, the bootstrap sets
`current_interval.time` to the raw first-packet time (not to
`firstPacketTime - firstPacketTime mod 60 = 1699999980`), and the first
interval identifier this worker reports is 1700000001, which is not a
multiple of the interval length. -/
theorem C1_counterexample :
    (runWorker 60 1700000001 [1700000001, 1700000100]).reports
      = [1700000001, 1700000040]
    ∧ ¬ (∀ r ∈ (runWorker 60 1700000001 [1700000001, 1700000100]).reports, r % 60 = 0)
    ∧ (initFirstInterval 1700000001 60).current_interval_time
        ≠ 1700000001 - 1700000001 % 60 := by
  refine ⟨by decide, by decide, by decide⟩

/-- C1 (amended): on its first packet a worker sets
`currentIntervalStart` to the raw first-packet time itself and
`nextBoundary` to `firstPacketTime - (firstPacketTime mod intervalLen) +
intervalLen`; consequently the first interval identifier the worker
reports is the raw first-packet time (not necessarily a multiple of the
interval length) and every subsequent identifier it reports is a
multiple of the configured interval length. -/
theorem C1_amended_reports (interval first_sec : Nat) (pkts : List Nat)
    (h : 0 < interval) :
    (runWorker interval first_sec pkts).reports = []
    ∨ ∃ t, (runWorker interval first_sec pkts).reports = first_sec :: t
        ∧ ∀ r ∈ t, r % interval = 0 :=
  (runWorker_inv interval first_sec pkts).2.2.1

/-- Witness for C1 (amended) at a concrete run crossing two
boundaries. -/
theorem C1_amended_reports_witness :
    (runWorker 60 120 [120, 250]).reports = []
    ∨ ∃ t, (runWorker 60 120 [120, 250]).reports = 120 :: t
        ∧ ∀ r ∈ t, r % 60 = 0 :=
  C1_amended_reports 60 120 [120, 250] (by decide)

/-! ## Reader-step lemmas -/

/-- The reader update of the scan never changes which packets a reader holds. -/
theorem stepReader_packets (r : InterimReader) :
    (stepReader r).packets = r.packets := by
  unfold stepReader readNextPacket InterimReader.packets
  by_cases hs : r.status = .nopacket
  · rw [if_pos hs]
    cases hr : r.remaining with
    | nil => simp [hs, hr]
    | cons t rest => simp [hs, hr]
  · rw [if_neg hs]

/-- The reader update of the scan never changes the cleanup-relevant fields. -/
theorem stepReader_shell (r : InterimReader) :
    (stepReader r).uri = r.uri ∧ (stepReader r).opened = r.opened
      ∧ (stepReader r).hasBuf = r.hasBuf := by
  unfold stepReader readNextPacket
  by_cases hs : r.status = .nopacket
  · rw [if_pos hs]
    cases hr : r.remaining <;> exact ⟨rfl, rfl, rfl⟩
  · rw [if_neg hs]; exact ⟨rfl, rfl, rfl⟩

/-- After the scan touches a reader, it is never left NOPACKET. -/
theorem stepReader_status (r : InterimReader) :
    (stepReader r).status ≠ .nopacket := by
  unfold stepReader readNextPacket
  by_cases hs : r.status = .nopacket
  · rw [if_pos hs]
    cases hr : r.remaining <;> simp
  · rw [if_neg hs]; exact hs

/-- The reader update of the scan preserves the EOF invariant. -/
theorem stepReader_eofInv (r : InterimReader) (h : r.status = .eof → r.remaining = []) :
    (stepReader r).status = .eof → (stepReader r).remaining = [] := by
  unfold stepReader readNextPacket
  by_cases hs : r.status = .nopacket
  · rw [if_pos hs]
    cases hr : r.remaining with
    | nil => intro _; rfl
    | cons t rest => simp
  · rw [if_neg hs]; exact h

/-- An EOF reader satisfying the EOF invariant holds no packets. -/
theorem eof_packets_nil (r : InterimReader) (h : r.status = .eof → r.remaining = [])
    (he : r.status = .eof) : r.packets = [] := by
  unfold InterimReader.packets
  rw [he, h he]
  simp

/-- A reader holds no packets exactly when it is not PACKET and its
unread tail is empty. -/
theorem packets_eq_nil_iff (r : InterimReader) :
    r.packets = [] ↔ (r.status ≠ .packet ∧ r.remaining = []) := by
  unfold InterimReader.packets
  by_cases hs : r.status = .packet
  · rw [if_pos hs]; simp [hs]
  · rw [if_neg hs]; simp [hs]

/-! ## The scan decomposes into a map and a fold -/

/-- `chooseNextAux` updates every reader independently of the candidate
and folds the candidate over the updated readers. -/
theorem chooseNextAux_eq :
    ∀ (rs : List InterimReader) (i : Nat) (cand : Option (Nat × Nat)),
      chooseNextAux rs i cand = (rs.map stepReader, selectCand (rs.map stepReader) i cand) := by
  intro rs
  induction rs with
  | nil => intro i cand; rfl
  | cons r rest ih =>
    intro i cand
    simp only [chooseNextAux, List.map_cons, selectCand, ih]

/-- Case analysis for one candidate update. -/
theorem candUpd_cases (i : Nat) (r : InterimReader) (cand : Option (Nat × Nat)) :
    (r.status ≠ .packet ∧ candUpd i r cand = cand)
    ∨ (r.status = .packet ∧ cand = none ∧ candUpd i r cand = some (i, r.nextp_ts))
    ∨ (r.status = .packet ∧ ∃ ci cts, cand = some (ci, cts) ∧
        ((r.nextp_ts < cts ∧ candUpd i r cand = some (i, r.nextp_ts))
         ∨ (cts ≤ r.nextp_ts ∧ candUpd i r cand = some (ci, cts)))) := by
  unfold candUpd
  by_cases hs : r.status = .packet
  · rw [if_pos hs]
    cases cand with
    | none => exact Or.inr (Or.inl ⟨hs, rfl, rfl⟩)
    | some p =>
      obtain ⟨ci, cts⟩ := p
      by_cases hlt : r.nextp_ts < cts
      · exact Or.inr (Or.inr ⟨hs, ci, cts, rfl, Or.inl ⟨hlt, by simp [hlt]⟩⟩)
      · exact Or.inr (Or.inr ⟨hs, ci, cts, rfl, Or.inr ⟨by omega, by simp [hlt]⟩⟩)
  · rw [if_neg hs]; exact Or.inl ⟨hs, rfl⟩

/-- A candidate update yields `none` only from `none` and a non-PACKET
reader. -/
theorem candUpd_none (i : Nat) (r : InterimReader) (cand : Option (Nat × Nat))
    (h : candUpd i r cand = none) : cand = none ∧ r.status ≠ .packet := by
  rcases candUpd_cases i r cand with ⟨hs, he⟩ | ⟨hs, hc, he⟩ | ⟨hs, ci, cts, hc, he⟩
  · exact ⟨by rw [← he, h], hs⟩
  · rw [he] at h; exact absurd h (by simp)
  · rcases he with ⟨_, he⟩ | ⟨_, he⟩ <;> rw [he] at h <;> exact absurd h (by simp)

/-- With no PACKET reader and no candidate, the fold never produces a
candidate. -/
theorem selectCand_stays_none :
    ∀ (rs : List InterimReader) (i : Nat),
      (∀ r ∈ rs, r.status ≠ .packet) → selectCand rs i none = none := by
  intro rs
  induction rs with
  | nil => intro i _; rfl
  | cons r rest ih =>
    intro i hall
    have hr := hall r (List.mem_cons_self r rest)
    simp only [selectCand, candUpd, if_neg hr]
    exact ih (i + 1) (fun r2 h2 => hall r2 (List.mem_cons_of_mem r h2))

/-- Full specification of the candidate fold: starting with a candidate
taken from indices before `i`, the fold returns `none` only when there
was no candidate and no PACKET reader; and when it returns a candidate
`(j, ts)`, that candidate is the original one or points at a PACKET
reader of the list, its timestamp is a lower bound of the original
candidate and of the buffered timestamp of every PACKET reader, and on ties
the lower index wins. -/
theorem selectCand_spec :
    ∀ (rs : List InterimReader) (i : Nat) (cand : Option (Nat × Nat)),
      (∀ c cts, cand = some (c, cts) → c < i) →
      (selectCand rs i cand = none → cand = none ∧ ∀ r ∈ rs, r.status ≠ .packet)
      ∧ (∀ j ts, selectCand rs i cand = some (j, ts) →
          ((cand = some (j, ts)
             ∨ (i ≤ j ∧ j - i < rs.length
                ∧ (rs.getD (j - i) default).status = .packet
                ∧ (rs.getD (j - i) default).nextp_ts = ts))
           ∧ (∀ c cts, cand = some (c, cts) → ts ≤ cts ∧ (ts = cts → j = c))
           ∧ (∀ k, k < rs.length → (rs.getD k default).status = .packet →
                ts ≤ (rs.getD k default).nextp_ts
                ∧ (ts = (rs.getD k default).nextp_ts → j ≤ i + k)))) := by
  intro rs
  induction rs with
  | nil =>
    intro i cand hc
    constructor
    · intro h; exact ⟨h, fun r hr => absurd hr (List.not_mem_nil r)⟩
    · intro j ts h
      have h2 : cand = some (j, ts) := h
      refine ⟨Or.inl h2, ?_, ?_⟩
      · intro c cts hcand
        rw [hcand] at h2
        have hp := Option.some.inj h2
        injection hp with hcc hts
        exact ⟨le_of_eq hts.symm, fun _ => hcc.symm⟩
      · intro k hk; exact absurd hk (by simp)
  | cons r rest ih =>
    intro i cand hc
    have hc2 : ∀ c cts, candUpd i r cand = some (c, cts) → c < i + 1 := by
      intro c cts h
      rcases candUpd_cases i r cand with ⟨hs, he⟩ | ⟨hs, hcnone, he⟩ | ⟨hs, ci, cts2, hcand2, he⟩
      · rw [he] at h; exact Nat.lt_succ_of_lt (hc c cts h)
      · rw [he] at h
        have hp := Option.some.inj h
        injection hp with h1 _
        omega
      · rcases he with ⟨_, he⟩ | ⟨_, he⟩
        · rw [he] at h
          have hp := Option.some.inj h
          injection hp with h1 _
          omega
        · rw [he] at h
          have hp := Option.some.inj h
          injection hp with h1 _
          have := hc ci cts2 hcand2
          omega
    have IH := ih (i + 1) (candUpd i r cand) hc2
    constructor
    · intro h
      have h2 : selectCand rest (i + 1) (candUpd i r cand) = none := h
      rcases IH.1 h2 with ⟨hnone, hall⟩
      rcases candUpd_none i r cand hnone with ⟨hcn, hrs⟩
      refine ⟨hcn, ?_⟩
      intro r2 hr2
      rcases List.mem_cons.mp hr2 with hr2 | hr2
      · rw [hr2]; exact hrs
      · exact hall r2 hr2
    · intro j ts h
      have h2 : selectCand rest (i + 1) (candUpd i r cand) = some (j, ts) := h
      obtain ⟨Horig, Hcand, Helem⟩ := IH.2 j ts h2
      refine ⟨?_, ?_, ?_⟩
      · -- where the winning candidate comes from
        rcases Horig with Hcand_eq | ⟨hij, hlen, hst, hts⟩
        · rcases candUpd_cases i r cand with ⟨hs, he⟩ | ⟨hs, hcnone, he⟩
            | ⟨hs, ci, cts2, hcand2, he⟩
          · exact Or.inl (by rw [← he]; exact Hcand_eq)
          · rw [he] at Hcand_eq
            have hp := Option.some.inj Hcand_eq
            injection hp with hji htseq
            right
            refine ⟨by omega, by simp; omega, ?_, ?_⟩
            · have hji0 : j - i = 0 := by omega
              rw [hji0, List.getD_cons_zero]; exact hs
            · have hji0 : j - i = 0 := by omega
              rw [hji0, List.getD_cons_zero]; exact htseq
          · rcases he with ⟨hlt, he⟩ | ⟨hge, he⟩
            · rw [he] at Hcand_eq
              have hp := Option.some.inj Hcand_eq
              injection hp with hji htseq
              right
              refine ⟨by omega, by simp; omega, ?_, ?_⟩
              · have hji0 : j - i = 0 := by omega
                rw [hji0, List.getD_cons_zero]; exact hs
              · have hji0 : j - i = 0 := by omega
                rw [hji0, List.getD_cons_zero]; exact htseq
            · rw [he] at Hcand_eq
              exact Or.inl (by rw [hcand2]; exact Hcand_eq)
        · right
          have h1 : i ≤ j := by omega
          have hji : j - i = (j - (i + 1)) + 1 := by omega
          refine ⟨h1, by simp; omega, ?_, ?_⟩
          · rw [hji, List.getD_cons_succ]; exact hst
          · rw [hji, List.getD_cons_succ]; exact hts
      · -- minimality and tie-break versus the original candidate
        intro c cts hcand
        rcases candUpd_cases i r cand with ⟨hs, he⟩ | ⟨hs, hcnone, he⟩
          | ⟨hs, ci, cts2, hcand2, he⟩
        · exact Hcand c cts (by rw [he]; exact hcand)
        · rw [hcand] at hcnone; exact absurd hcnone (by simp)
        · rw [hcand] at hcand2
          have hp := Option.some.inj hcand2
          injection hp with hcc hctst
          rcases he with ⟨hlt, he⟩ | ⟨hge, he⟩
          · have hx := Hcand i r.nextp_ts he
            constructor
            · omega
            · intro h5; exact absurd h5 (by omega)
          · have hx := Hcand ci cts2 he
            constructor
            · omega
            · intro h5
              have h6 := hx.2 (by omega)
              omega
      · -- minimality and tie-break versus every PACKET reader
        intro k hk hpk
        cases k with
        | zero =>
          rw [List.getD_cons_zero] at hpk ⊢
          rcases candUpd_cases i r cand with ⟨hs, he⟩ | ⟨hs, hcnone, he⟩
            | ⟨hs, ci, cts2, hcand2, he⟩
          · exact absurd hpk hs
          · have hx := Hcand i r.nextp_ts he
            exact ⟨hx.1, fun hteq => by have := hx.2 hteq; omega⟩
          · rcases he with ⟨hlt, he⟩ | ⟨hge, he⟩
            · have hx := Hcand i r.nextp_ts he
              exact ⟨hx.1, fun hteq => by have := hx.2 hteq; omega⟩
            · have hx := Hcand ci cts2 he
              have hci : ci < i := hc ci cts2 hcand2
              constructor
              · omega
              · intro hteq
                have h6 := hx.2 (by omega)
                omega
        | succ m =>
          have hk2 : m < rest.length := by simpa using hk
          rw [List.getD_cons_succ] at hpk ⊢
          have hx := Helem m hk2 hpk
          exact ⟨hx.1, fun hteq => by have := hx.2 hteq; omega⟩

/-! ## choose_next_merge_packet: specification (C4) -/

/-- The reader updates of the scan. -/
theorem choose_fst (rs : List InterimReader) :
    (choose_next_merge_packet rs).1 = rs.map stepReader := by
  unfold choose_next_merge_packet
  rw [chooseNextAux_eq]

/-- The candidate result of the scan. -/
theorem choose_snd (rs : List InterimReader) :
    (choose_next_merge_packet rs).2 = selectCand (rs.map stepReader) 0 none := by
  unfold choose_next_merge_packet
  rw [chooseNextAux_eq]

/-- After the scan, every reader is PACKET or EOF. -/
theorem choose_no_nopacket (rs : List InterimReader) :
    ∀ r ∈ (choose_next_merge_packet rs).1, r.status ≠ .nopacket := by
  rw [choose_fst]
  intro r hr
  rcases List.mem_map.mp hr with ⟨r0, _, hmap⟩
  rw [← hmap]
  exact stepReader_status r0

/-- When the scan returns a candidate, it is an in-range PACKET reader
with the candidate timestamp, minimal among the buffered
timestamps of all PACKET readers, and of lowest index among ties. -/
theorem choose_some_spec (rs : List InterimReader) (j ts : Nat)
    (h : (choose_next_merge_packet rs).2 = some (j, ts)) :
    j < (choose_next_merge_packet rs).1.length
    ∧ ((choose_next_merge_packet rs).1.getD j default).status = .packet
    ∧ ((choose_next_merge_packet rs).1.getD j default).nextp_ts = ts
    ∧ ∀ k, k < (choose_next_merge_packet rs).1.length →
        ((choose_next_merge_packet rs).1.getD k default).status = .packet →
        ts ≤ ((choose_next_merge_packet rs).1.getD k default).nextp_ts
        ∧ (ts = ((choose_next_merge_packet rs).1.getD k default).nextp_ts → j ≤ k) := by
  rw [choose_snd] at h
  rw [choose_fst]
  have hspec := (selectCand_spec (rs.map stepReader) 0 none (by intro c cts hh; simp at hh)).2
    j ts h
  obtain ⟨Horig, _, Helem⟩ := hspec
  rcases Horig with Hcn | ⟨_, hlen, hst, hts⟩
  · exact absurd Hcn (by simp)
  · have hj0 : j - 0 = j := by omega
    rw [hj0] at hlen hst hts
    refine ⟨hlen, hst, hts, ?_⟩
    intro k hk hpk
    have hx := Helem k hk hpk
    exact ⟨hx.1, fun hteq => by have := hx.2 hteq; omega⟩

/-- The scan returns `-1` exactly when no reader holds a packet
(buffered or unread), assuming the EOF invariant. -/
theorem choose_none_iff (rs : List InterimReader)
    (hinv : ∀ r ∈ rs, r.status = .eof → r.remaining = []) :
    (choose_next_merge_packet rs).2 = none ↔ ∀ r ∈ rs, r.packets = [] := by
  rw [choose_snd]
  constructor
  · intro h
    rcases (selectCand_spec (rs.map stepReader) 0 none
      (by intro c cts hh; simp at hh)).1 h with ⟨_, hall⟩
    intro r hr
    have hstep : stepReader r ∈ rs.map stepReader := List.mem_map_of_mem stepReader hr
    have hnp := hall (stepReader r) hstep
    rw [← stepReader_packets r]
    rcases hse : (stepReader r).status with h1 | h1 | h1
    · exact absurd hse (stepReader_status r)
    · exact absurd hse hnp
    · exact eof_packets_nil (stepReader r) (stepReader_eofInv r (hinv r hr)) hse
  · intro h
    apply selectCand_stays_none
    intro r2 hr2
    rcases List.mem_map.mp hr2 with ⟨r0, hr0, hmap⟩
    have hp0 : r0.packets = [] := h r0 hr0
    rcases (packets_eq_nil_iff r0).mp hp0 with ⟨hs0, hrem0⟩
    rw [← hmap]
    unfold stepReader readNextPacket
    by_cases hnp : r0.status = .nopacket
    · rw [if_pos hnp, hrem0]; simp
    · rw [if_neg hnp]; exact hs0

/-- C4: `choose_next_merge_packet` returns `-1` exactly when no reader
has a packet remaining; otherwise it returns the index of a reader whose
buffered packet timestamp is minimal among all readers with a buffered
packet, and among equal minima it returns the lowest reader index. -/
theorem C4_choose_next_spec (rs : List InterimReader)
    (hinv : ∀ r ∈ rs, r.status = .eof → r.remaining = []) :
    ((choose_next_merge_packet rs).2 = none ↔ ∀ r ∈ rs, r.packets = [])
    ∧ ∀ j ts, (choose_next_merge_packet rs).2 = some (j, ts) →
        j < (choose_next_merge_packet rs).1.length
        ∧ ((choose_next_merge_packet rs).1.getD j default).status = .packet
        ∧ ((choose_next_merge_packet rs).1.getD j default).nextp_ts = ts
        ∧ ∀ k, k < (choose_next_merge_packet rs).1.length →
            ((choose_next_merge_packet rs).1.getD k default).status = .packet →
            ts ≤ ((choose_next_merge_packet rs).1.getD k default).nextp_ts
            ∧ (ts = ((choose_next_merge_packet rs).1.getD k default).nextp_ts → j ≤ k) :=
  ⟨choose_none_iff rs hinv, fun j ts h => choose_some_spec rs j ts h⟩

/-- Witness for C4 at the concrete tie-break state `rsC4`: two readers
buffer timestamp 500, reader 2 is exhausted; the answer of the scan satisfies
the specification (in particular it picks index 0). -/
theorem C4_choose_next_spec_witness :
    (((choose_next_merge_packet rsC4).2 = none ↔ ∀ r ∈ rsC4, r.packets = [])
      ∧ ∀ j ts, (choose_next_merge_packet rsC4).2 = some (j, ts) →
          j < (choose_next_merge_packet rsC4).1.length
          ∧ ((choose_next_merge_packet rsC4).1.getD j default).status = .packet
          ∧ ((choose_next_merge_packet rsC4).1.getD j default).nextp_ts = ts
          ∧ ∀ k, k < (choose_next_merge_packet rsC4).1.length →
              ((choose_next_merge_packet rsC4).1.getD k default).status = .packet →
              ts ≤ ((choose_next_merge_packet rsC4).1.getD k default).nextp_ts
              ∧ (ts = ((choose_next_merge_packet rsC4).1.getD k default).nextp_ts → j ≤ k))
    ∧ (choose_next_merge_packet rsC4).2 = some (0, 500) :=
  ⟨C4_choose_next_spec rsC4 (by decide), by decide⟩

/-! ## Packet accounting through the merge loop -/

/-- Mapping with pointwise-equal functions. -/
theorem list_map_congr_fn {α β : Type} (f g : α → β) (l : List α)
    (h : ∀ a ∈ l, f a = g a) : l.map f = l.map g := by
  induction l with
  | nil => rfl
  | cons a l ih =>
    simp only [List.map_cons]
    rw [h a (List.mem_cons_self a l), ih (fun b hb => h b (List.mem_cons_of_mem a hb))]

/-- The scan preserves the total packet count. -/
theorem totalPackets_map_step (rs : List InterimReader) :
    totalPackets (rs.map stepReader) = totalPackets rs := by
  unfold totalPackets
  rw [List.map_map]
  congr 1
  apply list_map_congr_fn
  intro r _
  show (stepReader r).packets.length = r.packets.length
  rw [stepReader_packets]

/-- The scan preserves the packet multiset. -/
theorem msum_map_step (rs : List InterimReader) :
    msum (rs.map stepReader) = msum rs := by
  unfold msum
  rw [List.map_map]
  congr 1
  apply list_map_congr_fn
  intro r _
  show ((stepReader r).packets : Multiset Nat) = (r.packets : Multiset Nat)
  rw [stepReader_packets]

/-- The status of the reset reader. -/
theorem resetReader_status (r : InterimReader) :
    (resetReader r).status = InterimStatus.nopacket := rfl

/-- The reset reader holds exactly its unread tail. -/
theorem resetReader_packets (r : InterimReader) :
    (resetReader r).packets = r.remaining := by
  unfold resetReader InterimReader.packets
  simp

/-- The packets of a PACKET reader are its buffered timestamp followed by the
packets it holds after being reset to NOPACKET. -/
theorem packets_mark (r : InterimReader) (hp : r.status = .packet) :
    r.packets = r.nextp_ts :: (resetReader r).packets := by
  rw [resetReader_packets]
  unfold InterimReader.packets
  rw [if_pos hp]
  simp

/-- Writing the chosen packet decreases the total packet count by one. -/
theorem totalPackets_markWritten (rs : List InterimReader) (j : Nat)
    (hj : j < rs.length) (hp : (rs.getD j default).status = .packet) :
    totalPackets (markWritten rs j) + 1 = totalPackets rs := by
  have h := list_sum_map_set (fun r => r.packets.length) default rs j
    (resetReader (rs.getD j default)) hj
  dsimp only [] at h
  unfold totalPackets markWritten
  have hpl : (rs.getD j default).packets.length
      = (resetReader (rs.getD j default)).packets.length + 1 := by
    rw [packets_mark (rs.getD j default) hp]
    simp
  omega

/-- Writing the chosen packet removes exactly its timestamp from the
packet multiset. -/
theorem msum_markWritten (rs : List InterimReader) (j ts : Nat)
    (hj : j < rs.length) (hp : (rs.getD j default).status = .packet)
    (hts : (rs.getD j default).nextp_ts = ts) :
    msum (markWritten rs j) + ({ts} : Multiset Nat) = msum rs := by
  rw [← hts]
  have h := list_sum_map_set (fun r => (r.packets : Multiset Nat)) default rs j
    (resetReader (rs.getD j default)) hj
  dsimp only [] at h
  have hpl : ((rs.getD j default).packets : Multiset Nat)
      = ({(rs.getD j default).nextp_ts} : Multiset Nat)
        + ((resetReader (rs.getD j default)).packets : Multiset Nat) := by
    rw [packets_mark (rs.getD j default) hp]
    rw [← Multiset.cons_coe, ← Multiset.singleton_add]
  unfold msum markWritten
  rw [hpl, ← add_assoc] at h
  exact add_right_cancel h

/-- The scan preserves the EOF invariant. -/
theorem eofInv_choose (rs : List InterimReader)
    (hinv : ∀ r ∈ rs, r.status = .eof → r.remaining = []) :
    ∀ r ∈ (choose_next_merge_packet rs).1, r.status = .eof → r.remaining = [] := by
  rw [choose_fst]
  intro r hr
  rcases List.mem_map.mp hr with ⟨r0, hr0, hmap⟩
  rw [← hmap]
  exact stepReader_eofInv r0 (hinv r0 hr0)

/-- Resetting the chosen reader preserves the EOF invariant. -/
theorem eofInv_markWritten (rs : List InterimReader) (j : Nat)
    (hinv : ∀ r ∈ rs, r.status = .eof → r.remaining = []) :
    ∀ r ∈ markWritten rs j, r.status = .eof → r.remaining = [] := by
  intro r hr
  rcases list_mem_set rs j _ r hr with hr | hr
  · exact hinv r hr
  · rw [hr, resetReader_status]
    intro he
    exact absurd he (by decide)

/-- The scan preserves the reader invariant. -/
theorem readersOK_choose (rs : List InterimReader) (hok : readersOK rs) :
    readersOK (choose_next_merge_packet rs).1 := by
  rw [choose_fst]
  intro r hr
  rcases List.mem_map.mp hr with ⟨r0, hr0, hmap⟩
  rw [← hmap]
  exact ⟨stepReader_eofInv r0 (hok r0 hr0).1,
    by rw [stepReader_packets]; exact (hok r0 hr0).2⟩

/-- Resetting the chosen reader preserves the reader invariant. -/
theorem readersOK_markWritten (rs : List InterimReader) (j : Nat)
    (hok : readersOK rs) (hj : j < rs.length)
    (hp : (rs.getD j default).status = .packet) :
    readersOK (markWritten rs j) := by
  intro r hr
  rcases list_mem_set rs j _ r hr with hr | hr
  · exact hok r hr
  · rw [hr]
    constructor
    · rw [resetReader_status]
      intro he
      exact absurd he (by decide)
    · have hs := (hok (rs.getD j default) (list_getD_mem default rs j hj)).2
      rw [packets_mark (rs.getD j default) hp] at hs
      exact (List.sorted_cons.mp hs).2

/-- The chosen timestamp is a lower bound of every packet any reader
still holds after the scan. -/
theorem chosen_lb (rs : List InterimReader) (j ts : Nat) (hok : readersOK rs)
    (h : (choose_next_merge_packet rs).2 = some (j, ts)) :
    ∀ r ∈ (choose_next_merge_packet rs).1, ∀ t ∈ r.packets, ts ≤ t := by
  obtain ⟨hlen, hst, hts, hmin⟩ := choose_some_spec rs j ts h
  intro r hr t ht
  rcases list_mem_getD default _ r hr with ⟨k, hk, hgk⟩
  have hok2 : readersOK (choose_next_merge_packet rs).1 := readersOK_choose rs hok
  rcases hse : r.status with h1 | h1 | h1
  · exact absurd hse (choose_no_nopacket rs r hr)
  · have hts_le := (hmin k hk (by rw [hgk]; exact hse)).1
    rw [hgk] at hts_le
    have hsorted := (hok2 r hr).2
    unfold InterimReader.packets at ht hsorted
    rw [if_pos hse] at ht hsorted
    simp only [List.singleton_append] at ht hsorted
    rcases List.mem_cons.mp ht with ht | ht
    · rw [ht]; exact hts_le
    · exact le_trans hts_le ((List.sorted_cons.mp hsorted).1 t ht)
  · have hnil : r.packets = [] := eof_packets_nil r (hok2 r hr).1 hse
    rw [hnil] at ht
    exact absurd ht (List.not_mem_nil t)

/-- Lower bounds on packets survive the scan. -/
theorem lb_choose (rs : List InterimReader) (lo : Nat)
    (hlo : ∀ r ∈ rs, ∀ t ∈ r.packets, lo ≤ t) :
    ∀ r ∈ (choose_next_merge_packet rs).1, ∀ t ∈ r.packets, lo ≤ t := by
  rw [choose_fst]
  intro r hr t ht
  rcases List.mem_map.mp hr with ⟨r0, hr0, hmap⟩
  rw [← hmap, stepReader_packets] at ht
  exact hlo r0 hr0 t ht

/-- Lower bounds on packets survive resetting the chosen reader. -/
theorem lb_markWritten (rs : List InterimReader) (j lo : Nat) (hj : j < rs.length)
    (hlo : ∀ r ∈ rs, ∀ t ∈ r.packets, lo ≤ t) :
    ∀ r ∈ markWritten rs j, ∀ t ∈ r.packets, lo ≤ t := by
  intro r hr t ht
  rcases list_mem_set rs j _ r hr with hr | hr
  · exact hlo r hr t ht
  · apply hlo (rs.getD j default) (list_getD_mem default rs j hj) t
    rw [hr, resetReader_packets] at ht
    unfold InterimReader.packets
    exact List.mem_append_right _ ht

/-- A list of empty packet multisets sums to zero. -/
theorem msum_eq_zero (rs : List InterimReader) (h : ∀ r ∈ rs, r.packets = []) :
    msum rs = 0 := by
  unfold msum
  induction rs with
  | nil => rfl
  | cons r rest ih =>
    simp only [List.map_cons, List.sum_cons]
    rw [h r (List.mem_cons_self r rest)]
    rw [ih (fun r2 h2 => h r2 (List.mem_cons_of_mem r h2))]
    rfl

/-- Core correctness of the merge loop when every write succeeds: the
written sequence is non-decreasing in timestamp, it carries exactly the
multiset of packets the readers held, and it respects any lower bound on
those packets. -/
theorem mergeWritesFuel_spec :
    ∀ (fuel n : Nat) (rs : List InterimReader),
      totalPackets rs < fuel → readersOK rs →
      List.Sorted (· ≤ ·) (mergeWritesFuel fuel trueW n rs).1
      ∧ ((mergeWritesFuel fuel trueW n rs).1 : Multiset Nat) = msum rs
      ∧ (∀ lo, (∀ r ∈ rs, ∀ t ∈ r.packets, lo ≤ t) →
          ∀ x ∈ (mergeWritesFuel fuel trueW n rs).1, lo ≤ x) := by
  intro fuel
  induction fuel with
  | zero => intro n rs hf _; omega
  | succ fuel ih =>
    intro n rs hf hok
    rcases hch : choose_next_merge_packet rs with ⟨rs2, cand⟩
    have hch1 : (choose_next_merge_packet rs).1 = rs2 := by rw [hch]
    have hch2 : (choose_next_merge_packet rs).2 = cand := by rw [hch]
    cases cand with
    | none =>
      have he : (mergeWritesFuel (fuel + 1) trueW n rs).1 = [] := by
        simp [mergeWritesFuel, hch]
      rw [he]
      refine ⟨List.sorted_nil, ?_, ?_⟩
      · have hall : ∀ r ∈ rs, r.packets = [] :=
          (choose_none_iff rs (fun r hr => (hok r hr).1)).mp hch2
        rw [msum_eq_zero rs hall]
        rfl
      · intro lo _ x hx
        exact absurd hx (List.not_mem_nil x)
    | some p =>
      obtain ⟨j, ts⟩ := p
      obtain ⟨hlen, hst, hts, hmin⟩ := choose_some_spec rs j ts (by rw [hch2])
      rw [hch1] at hlen hst hts hmin
      have he : (mergeWritesFuel (fuel + 1) trueW n rs).1
          = (rs2.getD j default).nextp_ts
            :: (mergeWritesFuel fuel trueW (n + 1) (markWritten rs2 j)).1 := by
        simp [mergeWritesFuel, hch, trueW]
      have htp2 : totalPackets rs2 = totalPackets rs := by
        rw [← hch1, choose_fst]; exact totalPackets_map_step rs
      have htpm : totalPackets (markWritten rs2 j) + 1 = totalPackets rs2 :=
        totalPackets_markWritten rs2 j hlen hst
      have hok2 : readersOK rs2 := by
        rw [← hch1]; exact readersOK_choose rs hok
      have hokm : readersOK (markWritten rs2 j) :=
        readersOK_markWritten rs2 j hok2 hlen hst
      have hlb : ∀ r ∈ rs2, ∀ t ∈ r.packets, ts ≤ t := by
        rw [← hch1]; exact chosen_lb rs j ts hok (by rw [hch2])
      obtain ⟨ihs, ihm, ihlb⟩ := ih (n + 1) (markWritten rs2 j) (by omega) hokm
      rw [he, hts]
      refine ⟨?_, ?_, ?_⟩
      · apply List.sorted_cons.mpr
        exact ⟨fun b hb => ihlb ts (lb_markWritten rs2 j ts hlen hlb) b hb, ihs⟩
      · have hms : msum (markWritten rs2 j) + ({ts} : Multiset Nat) = msum rs2 :=
          msum_markWritten rs2 j ts hlen hst hts
        have hms2 : msum rs2 = msum rs := by
          rw [← hch1, choose_fst]; exact msum_map_step rs
        rw [← Multiset.cons_coe, ← Multiset.singleton_add, ihm, add_comm, hms, hms2]
      · intro lo hlo x hx
        have hlo2 : ∀ r ∈ rs2, ∀ t ∈ r.packets, lo ≤ t := by
          rw [← hch1]; exact lb_choose rs lo hlo
        rcases List.mem_cons.mp hx with hx | hx
        · rw [hx]
          have hmem : rs2.getD j default ∈ rs2 := list_getD_mem default rs2 j hlen
          have htsmem : ts ∈ (rs2.getD j default).packets := by
            unfold InterimReader.packets
            rw [if_pos hst, ← hts]
            simp
          exact hlo2 _ hmem ts htsmem
        · exact ihlb lo (lb_markWritten rs2 j lo hlen hlo2) x hx

/-! ## Setup-phase lemmas -/

/-- Basic facts about the two reader shapes built by the setup loop. -/
theorem eofReader_packets (u : String) : (eofReader u).packets = [] := by
  unfold eofReader InterimReader.packets
  simp

/-- A freshly opened reader starts NOPACKET. -/
theorem freshReader_status (u : String) (a : Bool) (pkts : List Nat) :
    (freshReader u a pkts).status = InterimStatus.nopacket := rfl

/-- A freshly opened reader holds exactly the packets of its file. -/
theorem freshReader_packets (u : String) (a : Bool) (pkts : List Nat) :
    (freshReader u a pkts).packets = pkts := by
  unfold freshReader InterimReader.packets
  simp

/-- The setup loop aborts exactly when some interim file opened but its
packet buffer could not be allocated. -/
theorem setupFrom_fail_iff (env : MergeEnv) :
    ∀ (fuel i : Nat),
      (setupFrom env i fuel).2 = true
        ↔ ∃ k, k < fuel ∧ (env.contents (i + k)).isSome = true
            ∧ env.allocOK (i + k) = false := by
  intro fuel
  induction fuel with
  | zero =>
    intro i
    constructor
    · intro h; exact absurd h (by simp [setupFrom])
    · rintro ⟨k, hk, _, _⟩; omega
  | succ fuel ih =>
    intro i
    cases hc : env.contents i with
    | none =>
      have he : (setupFrom env i (fuel + 1)).2 = (setupFrom env (i + 1) fuel).2 := by
        simp [setupFrom, hc]
      rw [he, ih (i + 1)]
      constructor
      · rintro ⟨k, hk, hsome, hal⟩
        refine ⟨k + 1, by omega, ?_, ?_⟩
        · have harg : i + (k + 1) = i + 1 + k := by omega
          rw [harg]; exact hsome
        · have harg : i + (k + 1) = i + 1 + k := by omega
          rw [harg]; exact hal
      · rintro ⟨k, hk, hsome, hal⟩
        cases k with
        | zero =>
          rw [Nat.add_zero] at hsome
          rw [hc] at hsome
          exact absurd hsome (by simp)
        | succ k2 =>
          refine ⟨k2, by omega, ?_, ?_⟩
          · have harg : i + 1 + k2 = i + (k2 + 1) := by omega
            rw [harg]; exact hsome
          · have harg : i + 1 + k2 = i + (k2 + 1) := by omega
            rw [harg]; exact hal
    | some pkts =>
      by_cases ha : env.allocOK i = true
      · have he : (setupFrom env i (fuel + 1)).2 = (setupFrom env (i + 1) fuel).2 := by
          simp [setupFrom, hc, ha]
        rw [he, ih (i + 1)]
        constructor
        · rintro ⟨k, hk, hsome, hal⟩
          refine ⟨k + 1, by omega, ?_, ?_⟩
          · have harg : i + (k + 1) = i + 1 + k := by omega
            rw [harg]; exact hsome
          · have harg : i + (k + 1) = i + 1 + k := by omega
            rw [harg]; exact hal
        · rintro ⟨k, hk, hsome, hal⟩
          cases k with
          | zero =>
            rw [Nat.add_zero] at hal
            rw [ha] at hal
            exact absurd hal (by simp)
          | succ k2 =>
            refine ⟨k2, by omega, ?_, ?_⟩
            · have harg : i + 1 + k2 = i + (k2 + 1) := by omega
              rw [harg]; exact hsome
            · have harg : i + 1 + k2 = i + (k2 + 1) := by omega
              rw [harg]; exact hal
      · have he : (setupFrom env i (fuel + 1)).2 = true := by
          simp [setupFrom, hc, ha]
        rw [he]
        constructor
        · intro _
          refine ⟨0, by omega, ?_, ?_⟩
          · rw [Nat.add_zero, hc]; rfl
          · rw [Nat.add_zero]; simpa using ha
        · intro _; rfl

/-- `expectedReader` when the interim file does not open. -/
theorem expectedReader_none (env : MergeEnv) (k : Nat) (hc : env.contents k = none) :
    expectedReader env k = eofReader (env.uris k) := by
  unfold expectedReader
  rw [hc]

/-- `expectedReader` when the interim file opens. -/
theorem expectedReader_some (env : MergeEnv) (k : Nat) (pkts : List Nat)
    (hc : env.contents k = some pkts) :
    expectedReader env k = freshReader (env.uris k) (env.allocOK k) pkts := by
  unfold expectedReader
  rw [hc]

/-- Per-index characterization of the readers the setup loop builds
(valid in the aborting case as well, for the readers it did build). -/
theorem setupFrom_getD (env : MergeEnv) :
    ∀ (fuel i k : Nat), k < (setupFrom env i fuel).1.length →
      (setupFrom env i fuel).1.getD k default = expectedReader env (i + k) := by
  intro fuel
  induction fuel with
  | zero => intro i k h; exact absurd h (by simp [setupFrom])
  | succ fuel ih =>
    intro i k h
    cases hc : env.contents i with
    | none =>
      have he : (setupFrom env i (fuel + 1)).1
          = eofReader (env.uris i) :: (setupFrom env (i + 1) fuel).1 := by
        simp [setupFrom, hc]
      rw [he] at h ⊢
      cases k with
      | zero =>
        show (eofReader (env.uris i) :: (setupFrom env (i + 1) fuel).1).getD 0 default
            = expectedReader env i
        rw [List.getD_cons_zero, expectedReader_none env i hc]
      | succ k2 =>
        rw [List.getD_cons_succ]
        have harg : i + (k2 + 1) = i + 1 + k2 := by omega
        rw [harg]
        exact ih (i + 1) k2 (by simpa using h)
    | some pkts =>
      by_cases ha : env.allocOK i = true
      · have he : (setupFrom env i (fuel + 1)).1
            = freshReader (env.uris i) true pkts :: (setupFrom env (i + 1) fuel).1 := by
          simp [setupFrom, hc, ha]
        rw [he] at h ⊢
        cases k with
        | zero =>
          show (freshReader (env.uris i) true pkts :: (setupFrom env (i + 1) fuel).1).getD 0 default
              = expectedReader env i
          rw [List.getD_cons_zero, expectedReader_some env i pkts hc, ha]
        | succ k2 =>
          rw [List.getD_cons_succ]
          have harg : i + (k2 + 1) = i + 1 + k2 := by omega
          rw [harg]
          exact ih (i + 1) k2 (by simpa using h)
      · have haf : env.allocOK i = false := by simpa using ha
        have he : (setupFrom env i (fuel + 1)).1 = [freshReader (env.uris i) false pkts] := by
          simp [setupFrom, hc, haf]
        rw [he] at h ⊢
        cases k with
        | zero =>
          show (freshReader (env.uris i) false pkts :: ([] : List InterimReader)).getD 0 default
              = expectedReader env i
          rw [List.getD_cons_zero, expectedReader_some env i pkts hc, haf]
        | succ k2 => simp at h

/-- Every reader the setup loop builds satisfies the EOF invariant. -/
theorem setupFrom_eofInv (env : MergeEnv) :
    ∀ (fuel i : Nat), ∀ r ∈ (setupFrom env i fuel).1,
      r.status = .eof → r.remaining = [] := by
  intro fuel
  induction fuel with
  | zero => intro i r hr; exact absurd hr (by simp [setupFrom])
  | succ fuel ih =>
    intro i r hr
    cases hc : env.contents i with
    | none =>
      rw [show (setupFrom env i (fuel + 1)).1
          = eofReader (env.uris i) :: (setupFrom env (i + 1) fuel).1 from by
            simp [setupFrom, hc]] at hr
      rcases List.mem_cons.mp hr with hr | hr
      · rw [hr]; intro _; rfl
      · exact ih (i + 1) r hr
    | some pkts =>
      by_cases ha : env.allocOK i = true
      · rw [show (setupFrom env i (fuel + 1)).1
            = freshReader (env.uris i) true pkts :: (setupFrom env (i + 1) fuel).1 from by
              simp [setupFrom, hc, ha]] at hr
        rcases List.mem_cons.mp hr with hr | hr
        · rw [hr, freshReader_status]; intro he; exact absurd he (by decide)
        · exact ih (i + 1) r hr
      · have haf : env.allocOK i = false := by simpa using ha
        rw [show (setupFrom env i (fuel + 1)).1 = [freshReader (env.uris i) false pkts] from by
              simp [setupFrom, hc, haf]] at hr
        rcases List.mem_cons.mp hr with hr | hr
        · rw [hr, freshReader_status]; intro he; exact absurd he (by decide)
        · exact absurd hr (List.not_mem_nil r)

/-- With per-file sorted interim contents, the setup loop builds readers
satisfying the reader invariant. -/
theorem setupFrom_readersOK (env : MergeEnv) :
    ∀ (fuel i : Nat),
      (∀ k, k < i + fuel → List.Sorted (· ≤ ·) ((env.contents k).getD [])) →
      readersOK (setupFrom env i fuel).1 := by
  intro fuel
  induction fuel with
  | zero => intro i _ r hr; exact absurd hr (by simp [setupFrom])
  | succ fuel ih =>
    intro i hsrt r hr
    have hrec : ∀ k, k < (i + 1) + fuel → List.Sorted (· ≤ ·) ((env.contents k).getD []) := by
      intro k hk; exact hsrt k (by omega)
    cases hc : env.contents i with
    | none =>
      rw [show (setupFrom env i (fuel + 1)).1
          = eofReader (env.uris i) :: (setupFrom env (i + 1) fuel).1 from by
            simp [setupFrom, hc]] at hr
      rcases List.mem_cons.mp hr with hr | hr
      · rw [hr]
        exact ⟨fun _ => rfl, by rw [eofReader_packets]; exact List.sorted_nil⟩
      · exact ih (i + 1) hrec r hr
    | some pkts =>
      have hsp : List.Sorted (· ≤ ·) pkts := by
        have := hsrt i (by omega)
        rw [hc] at this
        exact this
      by_cases ha : env.allocOK i = true
      · rw [show (setupFrom env i (fuel + 1)).1
            = freshReader (env.uris i) true pkts :: (setupFrom env (i + 1) fuel).1 from by
              simp [setupFrom, hc, ha]] at hr
        rcases List.mem_cons.mp hr with hr | hr
        · rw [hr]
          refine ⟨?_, by rw [freshReader_packets]; exact hsp⟩
          rw [freshReader_status]
          intro he
          exact absurd he (by decide)
        · exact ih (i + 1) hrec r hr
      · have haf : env.allocOK i = false := by simpa using ha
        rw [show (setupFrom env i (fuel + 1)).1 = [freshReader (env.uris i) false pkts] from by
              simp [setupFrom, hc, haf]] at hr
        rcases List.mem_cons.mp hr with hr | hr
        · rw [hr]
          refine ⟨?_, by rw [freshReader_packets]; exact hsp⟩
          rw [freshReader_status]
          intro he
          exact absurd he (by decide)
        · exact absurd hr (List.not_mem_nil r)

/-- When no allocation fails, the packet multiset held by the set-up
readers is exactly the union of the contents of the interim files. -/
theorem msum_setupFrom (env : MergeEnv) :
    ∀ (fuel i : Nat),
      (∀ k, k < fuel → (env.contents (i + k)).isSome = true → env.allocOK (i + k) = true) →
      msum (setupFrom env i fuel).1
        = ((List.range fuel).map fun k => (((env.contents (i + k)).getD []) : Multiset Nat)).sum := by
  intro fuel
  induction fuel with
  | zero => intro i _; rfl
  | succ fuel ih =>
    intro i hok
    have hrec : ∀ k, k < fuel → (env.contents (i + 1 + k)).isSome = true →
        env.allocOK (i + 1 + k) = true := by
      intro k hk hsome
      have harg : i + 1 + k = i + (k + 1) := by omega
      rw [harg] at hsome ⊢
      exact hok (k + 1) (by omega) hsome
    have hrng : ((List.range (fuel + 1)).map
          fun k => (((env.contents (i + k)).getD []) : Multiset Nat)).sum
        = (((env.contents (i + 0)).getD []) : Multiset Nat)
          + ((List.range fuel).map
              fun k => (((env.contents (i + 1 + k)).getD []) : Multiset Nat)).sum := by
      rw [List.range_succ_eq_map]
      simp only [List.map_cons, List.sum_cons, List.map_map]
      congr 2
      apply list_map_congr_fn
      intro k _
      show (((env.contents (i + (Nat.succ k))).getD []) : Multiset Nat)
          = (((env.contents (i + 1 + k)).getD []) : Multiset Nat)
      have harg : i + Nat.succ k = i + 1 + k := by omega
      rw [harg]
    cases hc : env.contents i with
    | none =>
      have he : (setupFrom env i (fuel + 1)).1
          = eofReader (env.uris i) :: (setupFrom env (i + 1) fuel).1 := by
        simp [setupFrom, hc]
      rw [he, hrng]
      unfold msum
      simp only [List.map_cons, List.sum_cons]
      rw [eofReader_packets]
      have hz : ((env.contents (i + 0)).getD [] : Multiset Nat) = (([] : List Nat) : Multiset Nat) := by
        have harg : i + 0 = i := by omega
        rw [harg, hc]
        rfl
      rw [hz]
      have := ih (i + 1) hrec
      unfold msum at this
      rw [this]
    | some pkts =>
      have ha : env.allocOK i = true := by
        apply hok 0 (by omega)
        have harg : i + 0 = i := by omega
        rw [harg, hc]
        rfl
      have he : (setupFrom env i (fuel + 1)).1
          = freshReader (env.uris i) true pkts :: (setupFrom env (i + 1) fuel).1 := by
        simp [setupFrom, hc, ha]
      rw [he, hrng]
      unfold msum
      simp only [List.map_cons, List.sum_cons]
      rw [freshReader_packets]
      have hz : ((env.contents (i + 0)).getD [] : Multiset Nat) = (pkts : Multiset Nat) := by
        have harg : i + 0 = i := by omega
        rw [harg, hc]
        rfl
      rw [hz]
      have := ih (i + 1) hrec
      unfold msum at this
      rw [this]

/-! ## Success of the merge loop (C3) and shell preservation (C6) -/

/-- Readers that hold no packets contribute zero to the total count. -/
theorem totalPackets_eq_zero (rs : List InterimReader)
    (h : ∀ r ∈ rs, r.packets = []) : totalPackets rs = 0 := by
  unfold totalPackets
  induction rs with
  | nil => rfl
  | cons r rest ih =>
    simp only [List.map_cons, List.sum_cons]
    rw [h r (List.mem_cons_self r rest),
      ih (fun r2 h2 => h r2 (List.mem_cons_of_mem r h2))]
    rfl

/-- The merge loop succeeds exactly when every one of the
`totalPackets rs` writes it performs succeeds. -/
theorem mergeWritesFuel_ok :
    ∀ (fuel n : Nat) (w : Nat → Bool) (rs : List InterimReader),
      totalPackets rs < fuel →
      (∀ r ∈ rs, r.status = .eof → r.remaining = []) →
      ((mergeWritesFuel fuel w n rs).2.1 = true
        ↔ ∀ m, m < totalPackets rs → w (n + m) = true) := by
  intro fuel
  induction fuel with
  | zero => intro n w rs hf _; omega
  | succ fuel ih =>
    intro n w rs hf hinv
    rcases hch : choose_next_merge_packet rs with ⟨rs2, cand⟩
    have hch1 : (choose_next_merge_packet rs).1 = rs2 := by rw [hch]
    have hch2 : (choose_next_merge_packet rs).2 = cand := by rw [hch]
    cases cand with
    | none =>
      have he : (mergeWritesFuel (fuel + 1) w n rs).2.1 = true := by
        simp [mergeWritesFuel, hch]
      have htp0 : totalPackets rs = 0 :=
        totalPackets_eq_zero rs ((choose_none_iff rs hinv).mp hch2)
      rw [he, htp0]
      simp
    | some p =>
      obtain ⟨j, ts⟩ := p
      obtain ⟨hlen, hst, hts, _⟩ := choose_some_spec rs j ts (by rw [hch2])
      rw [hch1] at hlen hst hts
      have htp2 : totalPackets rs2 = totalPackets rs := by
        rw [← hch1, choose_fst]; exact totalPackets_map_step rs
      have htpm : totalPackets (markWritten rs2 j) + 1 = totalPackets rs2 :=
        totalPackets_markWritten rs2 j hlen hst
      have hinv2 : ∀ r ∈ rs2, r.status = .eof → r.remaining = [] := by
        rw [← hch1]; exact eofInv_choose rs hinv
      have hinvm : ∀ r ∈ markWritten rs2 j, r.status = .eof → r.remaining = [] :=
        eofInv_markWritten rs2 j hinv2
      by_cases hw : w n = true
      · have he : (mergeWritesFuel (fuel + 1) w n rs).2.1
            = (mergeWritesFuel fuel w (n + 1) (markWritten rs2 j)).2.1 := by
          simp [mergeWritesFuel, hch, hw]
        rw [he, ih (n + 1) w (markWritten rs2 j) (by omega) hinvm]
        constructor
        · intro hall m hm
          cases m with
          | zero => rw [Nat.add_zero]; exact hw
          | succ m2 =>
            have harg : n + (m2 + 1) = n + 1 + m2 := by omega
            rw [harg]
            exact hall m2 (by omega)
        · intro hall m hm
          have harg : n + 1 + m = n + (m + 1) := by omega
          rw [harg]
          exact hall (m + 1) (by omega)
      · have he : (mergeWritesFuel (fuel + 1) w n rs).2.1 = false := by
          simp [mergeWritesFuel, hch, hw]
        rw [he]
        constructor
        · intro h0; exact absurd h0 (by simp)
        · intro hall
          have h0 := hall 0 (by omega)
          rw [Nat.add_zero] at h0
          exact absurd h0 hw

/-- `resetReader` does not change the cleanup-relevant fields. -/
theorem resetReader_shell (r : InterimReader) :
    (resetReader r).uri = r.uri ∧ (resetReader r).opened = r.opened
      ∧ (resetReader r).hasBuf = r.hasBuf :=
  ⟨rfl, rfl, rfl⟩

/-- Resetting the chosen reader keeps every shell. -/
theorem shellOf_markWritten :
    ∀ (rs : List InterimReader) (j : Nat), shellOf (markWritten rs j) = shellOf rs := by
  intro rs
  induction rs with
  | nil => intro j; rfl
  | cons r rest ih =>
    intro j
    cases j with
    | zero => rfl
    | succ j2 =>
      show shellOf (r :: markWritten rest j2) = shellOf (r :: rest)
      unfold shellOf
      simp only [List.map_cons]
      have := ih j2
      unfold shellOf at this
      rw [this]

/-- The scan keeps every shell. -/
theorem shellOf_choose (rs : List InterimReader) :
    shellOf (choose_next_merge_packet rs).1 = shellOf rs := by
  rw [choose_fst]
  unfold shellOf
  rw [List.map_map]
  apply list_map_congr_fn
  intro r _
  obtain ⟨h1, h2, h3⟩ := stepReader_shell r
  show ((stepReader r).uri, (stepReader r).opened, (stepReader r).hasBuf)
      = (r.uri, r.opened, r.hasBuf)
  rw [h1, h2, h3]

/-- The merge loop keeps every shell. -/
theorem shellOf_mergeWrites :
    ∀ (fuel n : Nat) (w : Nat → Bool) (rs : List InterimReader),
      shellOf (mergeWritesFuel fuel w n rs).2.2 = shellOf rs := by
  intro fuel
  induction fuel with
  | zero => intro n w rs; rfl
  | succ fuel ih =>
    intro n w rs
    rcases hch : choose_next_merge_packet rs with ⟨rs2, cand⟩
    have hsh2 : shellOf rs2 = shellOf rs := by
      rw [← shellOf_choose rs, hch]
    cases cand with
    | none =>
      have he : (mergeWritesFuel (fuel + 1) w n rs).2.2 = rs2 := by
        simp [mergeWritesFuel, hch]
      rw [he, hsh2]
    | some p =>
      obtain ⟨j, ts⟩ := p
      by_cases hw : w n = true
      · have he : (mergeWritesFuel (fuel + 1) w n rs).2.2
            = (mergeWritesFuel fuel w (n + 1) (markWritten rs2 j)).2.2 := by
          simp [mergeWritesFuel, hch, hw]
        rw [he, ih (n + 1) w (markWritten rs2 j), shellOf_markWritten, hsh2]
      · have he : (mergeWritesFuel (fuel + 1) w n rs).2.2 = rs2 := by
          simp [mergeWritesFuel, hch, hw]
        rw [he, hsh2]

/-- Two reader lists with equal shells produce the same cleanup effects. -/
theorem cleanup_eq_of_shell :
    ∀ (rs1 rs2 : List InterimReader), shellOf rs1 = shellOf rs2 →
      ((rs1.filter fun r => r.opened).map fun r => stripScheme r.uri)
          = ((rs2.filter fun r => r.opened).map fun r => stripScheme r.uri)
      ∧ (rs1.map fun r => r.opened) = (rs2.map fun r => r.opened)
      ∧ (rs1.map fun r => r.hasBuf) = (rs2.map fun r => r.hasBuf) := by
  intro rs1
  induction rs1 with
  | nil =>
    intro rs2 h
    have h2 : rs2 = [] := by
      cases rs2 with
      | nil => rfl
      | cons r rest => exact absurd h.symm (by simp [shellOf])
    rw [h2]
    exact ⟨rfl, rfl, rfl⟩
  | cons r rest ih =>
    intro rs2 h
    cases rs2 with
    | nil => exact absurd h (by simp [shellOf])
    | cons r2 rest2 =>
      unfold shellOf at h
      simp only [List.map_cons, List.cons.injEq, Prod.mk.injEq] at h
      obtain ⟨⟨hu, ho, hb⟩, htail⟩ := h
      obtain ⟨h1, h2, h3⟩ := ih rest2 htail
      refine ⟨?_, ?_, ?_⟩
      · by_cases hop : r.opened = true
        · rw [List.filter_cons_of_pos hop, List.filter_cons_of_pos (by rw [← ho]; exact hop)]
          simp only [List.map_cons]
          rw [hu, h1]
        · have hopf : r.opened = false := by simpa using hop
          rw [List.filter_cons_of_neg (by simp [hopf]),
            List.filter_cons_of_neg (by simp [← ho, hopf])]
          exact h1
      · simp only [List.map_cons]; rw [ho, h2]
      · simp only [List.map_cons]; rw [hb, h3]

/-- `write_merged_output` on a setup failure: straight to cleanup with
`success = 0` and `ret = -1`. -/
theorem write_merged_output_setupfail (env : MergeEnv)
    (hb : (setupReaders env).2 = true) :
    write_merged_output env = finishMerge env (setupReaders env).1 false (-1) [] := by
  simp only [write_merged_output]
  rw [hb]
  simp

/-- `write_merged_output` when the output writer cannot be created. -/
theorem write_merged_output_writerfail (env : MergeEnv)
    (hb : (setupReaders env).2 = false) (hw : env.writerOK = false) :
    write_merged_output env = finishMerge env (setupReaders env).1 false (-1) [] := by
  simp only [write_merged_output]
  rw [hb, hw]
  simp

/-- `write_merged_output` when setup and writer creation succeed: run
the merge loop and finish from its result. -/
theorem write_merged_output_run (env : MergeEnv)
    (hb : (setupReaders env).2 = false) (hw : env.writerOK = true) :
    write_merged_output env
      = finishMerge env (mergeWrites env.writeOK (setupReaders env).1).2.2
          (mergeWrites env.writeOK (setupReaders env).1).2.1
          (if (mergeWrites env.writeOK (setupReaders env).1).2.1 then 0 else -1)
          (mergeWrites env.writeOK (setupReaders env).1).1 := by
  simp only [write_merged_output]
  rw [hb, hw]
  simp

/-! ## C2: merged output is sorted and complete -/

/-- C2: when the merge of an interval runs without error, over any
family of per-worker interim sequences that are each non-decreasing in
timestamp, the sequence of packets the merge loop writes (repeatedly
choosing via `choose_next_merge_packet` until `-1`) is non-decreasing in
timestamp and is exactly the multiset union of the input sequences. -/
theorem C2_merge_sorted_complete (env : MergeEnv)
    (halloc : ∀ i, i < env.threads → env.allocOK i = true)
    (hwriter : env.writerOK = true)
    (hwrites : ∀ n, env.writeOK n = true)
    (hsorted : ∀ i, i < env.threads → List.Sorted (· ≤ ·) ((env.contents i).getD [])) :
    List.Sorted (· ≤ ·) (write_merged_output env).written
    ∧ ((write_merged_output env).written : Multiset Nat)
        = ((List.range env.threads).map
            fun i => (((env.contents i).getD []) : Multiset Nat)).sum := by
  have hb : (setupReaders env).2 = false := by
    cases hb2 : (setupReaders env).2
    · rfl
    · exfalso
      rcases (setupFrom_fail_iff env env.threads 0).mp hb2 with ⟨k, hk, _, hal⟩
      rw [Nat.zero_add] at hal
      rw [halloc k hk] at hal
      exact absurd hal (by simp)
  have hout := write_merged_output_run env hb hwriter
  have hwfun : env.writeOK = trueW := funext fun n => hwrites n
  have hok : readersOK (setupReaders env).1 := by
    apply setupFrom_readersOK env env.threads 0
    intro k hk
    exact hsorted k (by omega)
  obtain ⟨hs, hm, _⟩ := mergeWritesFuel_spec (totalPackets (setupReaders env).1 + 1) 0
    (setupReaders env).1 (by omega) hok
  have hwm : (write_merged_output env).written
      = (mergeWritesFuel (totalPackets (setupReaders env).1 + 1) trueW 0
          (setupReaders env).1).1 := by
    rw [hout]
    show (mergeWrites env.writeOK (setupReaders env).1).1 = _
    unfold mergeWrites
    rw [hwfun]
  constructor
  · rw [hwm]; exact hs
  · rw [hwm, hm]
    show msum (setupFrom env 0 env.threads).1 = _
    rw [msum_setupFrom env env.threads 0 (by
      intro k hk _
      rw [Nat.zero_add]
      exact halloc k hk)]
    congr 1
    apply list_map_congr_fn
    intro k _
    rw [Nat.zero_add]

/-- Witness for C2 at `envC2` (spec scenario 1 shape). -/
theorem C2_merge_sorted_complete_witness :
    List.Sorted (· ≤ ·) (write_merged_output envC2).written
    ∧ ((write_merged_output envC2).written : Multiset Nat)
        = ((List.range envC2.threads).map
            fun i => (((envC2.contents i).getD []) : Multiset Nat)).sum :=
  C2_merge_sorted_complete envC2 (by decide) rfl (fun _ => rfl) (by decide)

/-! ## C3: the .done marker -/

/-- C3: the `.done` marker is created exactly when the merge ran to
end-of-merge without error — the packet buffer of every opened interim file
allocated, the output writer created, and every packet write succeeded.
Any of those failures prevents the marker. -/
theorem C3_done_marker_iff_no_error (env : MergeEnv) :
    (write_merged_output env).doneCreated = true ↔
      ((∀ i, i < env.threads → (env.contents i).isSome = true → env.allocOK i = true)
       ∧ env.writerOK = true
       ∧ ∀ m, m < totalPackets (setupReaders env).1 → env.writeOK m = true) := by
  cases hb : (setupReaders env).2
  · have hnofail : ∀ i, i < env.threads →
        (env.contents i).isSome = true → env.allocOK i = true := by
      intro i hi hsome
      cases hal : env.allocOK i
      · exfalso
        have habs : (setupReaders env).2 = true := by
          apply (setupFrom_fail_iff env env.threads 0).mpr
          exact ⟨i, hi, by rw [Nat.zero_add]; exact hsome, by rw [Nat.zero_add]; exact hal⟩
        rw [hb] at habs
        exact absurd habs (by simp)
      · rfl
    by_cases hwr : env.writerOK = true
    · have hout := write_merged_output_run env hb hwr
      have hdone : (write_merged_output env).doneCreated
          = (mergeWrites env.writeOK (setupReaders env).1).2.1 := by
        rw [hout]
        rfl
      have hinv := setupFrom_eofInv env env.threads 0
      rw [hdone]
      show (mergeWritesFuel (totalPackets (setupReaders env).1 + 1) env.writeOK 0
          (setupReaders env).1).2.1 = true ↔ _
      rw [mergeWritesFuel_ok (totalPackets (setupReaders env).1 + 1) 0 env.writeOK
        (setupReaders env).1 (by omega) hinv]
      constructor
      · intro hall
        refine ⟨hnofail, hwr, ?_⟩
        intro m hm
        have hx := hall m hm
        rw [Nat.zero_add] at hx
        exact hx
      · rintro ⟨_, _, hall⟩
        intro m hm
        rw [Nat.zero_add]
        exact hall m hm
    · have hwf : env.writerOK = false := by revert hwr; cases env.writerOK <;> simp
      have hout := write_merged_output_writerfail env hb hwf
      constructor
      · intro h
        rw [hout] at h
        exact absurd h (by simp [finishMerge])
      · rintro ⟨_, h2, _⟩
        exact absurd h2 hwr
  · have hout := write_merged_output_setupfail env hb
    constructor
    · intro h
      rw [hout] at h
      exact absurd h (by simp [finishMerge])
    · rintro ⟨h1, _, _⟩
      rcases (setupFrom_fail_iff env env.threads 0).mp hb with ⟨k, hk, hsome, hal⟩
      rw [Nat.zero_add] at hsome hal
      rw [h1 k hk hsome] at hal
      exact absurd hal (by simp)

/-- Witness for C3 at `envC2`: all three error sources absent, so the
marker is created. -/
theorem C3_done_marker_iff_no_error_witness :
    (write_merged_output envC2).doneCreated = true :=
  (C3_done_marker_iff_no_error envC2).mpr ⟨by decide, rfl, fun _ _ => rfl⟩

/-! ## C6: interim cleanup after any merge attempt -/

/-- C6: after any merge attempt (successful or abandoned), the unlinked
paths are exactly the scheme-stripped URIs of the readers whose interim
file was opened, the sources destroyed are exactly the opened ones and
the packet buffers destroyed exactly the allocated ones; and each set-up
reader carries the derived URI, was opened exactly when its interim file
existed, and has a buffer exactly when it opened and the allocation
succeeded. -/
theorem C6_cleanup_spec (env : MergeEnv) :
    (write_merged_output env).removed
        = (((setupReaders env).1.filter fun r => r.opened).map fun r => stripScheme r.uri)
    ∧ (write_merged_output env).srcDestroyed = ((setupReaders env).1.map fun r => r.opened)
    ∧ (write_merged_output env).bufDestroyed = ((setupReaders env).1.map fun r => r.hasBuf)
    ∧ ∀ k, k < (setupReaders env).1.length →
        ((setupReaders env).1.getD k default).uri = env.uris k
        ∧ ((setupReaders env).1.getD k default).opened = (env.contents k).isSome
        ∧ ((setupReaders env).1.getD k default).hasBuf
            = ((env.contents k).isSome && env.allocOK k) := by
  have hchar : ∀ k, k < (setupReaders env).1.length →
      ((setupReaders env).1.getD k default).uri = env.uris k
      ∧ ((setupReaders env).1.getD k default).opened = (env.contents k).isSome
      ∧ ((setupReaders env).1.getD k default).hasBuf
          = ((env.contents k).isSome && env.allocOK k) := by
    intro k hk
    have hg := setupFrom_getD env env.threads 0 k hk
    rw [Nat.zero_add] at hg
    have hg2 : (setupReaders env).1.getD k default = expectedReader env k := hg
    rw [hg2]
    cases hc : env.contents k with
    | none =>
      rw [expectedReader_none env k hc]
      exact ⟨rfl, rfl, rfl⟩
    | some pkts =>
      rw [expectedReader_some env k pkts hc]
      refine ⟨rfl, rfl, ?_⟩
      show env.allocOK k = (Option.isSome (some pkts) && env.allocOK k)
      simp
  refine ⟨?_, ?_, ?_, hchar⟩ <;>
  · cases hb : (setupReaders env).2
    · by_cases hwr : env.writerOK = true
      · rw [write_merged_output_run env hb hwr]
        have hsh : shellOf (mergeWrites env.writeOK (setupReaders env).1).2.2
            = shellOf (setupReaders env).1 := by
          unfold mergeWrites
          exact shellOf_mergeWrites _ _ _ _
        obtain ⟨h1, h2, h3⟩ := cleanup_eq_of_shell _ _ hsh
        first | exact h1 | exact h2 | exact h3
      · have hwf : env.writerOK = false := by revert hwr; cases env.writerOK <;> simp
        rw [write_merged_output_writerfail env hb hwf]
        rfl
    · rw [write_merged_output_setupfail env hb]
      rfl

/-- Witness for C6 at `envC6`: the interim file of worker 0 (URI
`pcapfile:int--0`) is unlinked at the stripped path `int--0`; worker 1
was silent, so nothing else is removed. -/
theorem C6_cleanup_spec_witness :
    (write_merged_output envC6).removed = ["int--0"] :=
  (C6_cleanup_spec envC6).1.trans (by decide)

/-! ## C10: the .stats sidecar is written regardless of merge outcome -/

/-- C10: with statistics enabled, the `.stats` file is written (exactly
when its `fopen` succeeds) on every path of `write_merged_output` —
including merges abandoned by an error — since the statistics block sits
after the `fail:` label and does not consult the success flag. -/
theorem C10_stats_regardless (env : MergeEnv) (hw : env.writestats = true) :
    (write_merged_output env).statsWritten = env.statsOpenOK := by
  cases hb : (setupReaders env).2
  · by_cases hwr : env.writerOK = true
    · rw [write_merged_output_run env hb hwr]
      show (env.writestats && env.statsOpenOK) = env.statsOpenOK
      rw [hw]
      simp
    · have hwf : env.writerOK = false := by revert hwr; cases env.writerOK <;> simp
      rw [write_merged_output_writerfail env hb hwf]
      show (env.writestats && env.statsOpenOK) = env.statsOpenOK
      rw [hw]
      simp
  · rw [write_merged_output_setupfail env hb]
    show (env.writestats && env.statsOpenOK) = env.statsOpenOK
    rw [hw]
    simp

/-- Witness for C10 at `envC10`: the writer cannot be created, the merge
is abandoned, no `.done` marker is made — yet the `.stats` file is
written. -/
theorem C10_stats_regardless_witness :
    (write_merged_output envC10).statsWritten = true
    ∧ (write_merged_output envC10).doneCreated = false :=
  ⟨(C10_stats_regardless envC10 rfl).trans rfl, by decide⟩
